import Mathlib

/-!
# Beacon state setters and the cached Merkle layers

A shallow embedding of `beacon-chain/state/setters.go`: the field index
enumeration, the twenty `Set*` operations of `BeaconState`, and
`recomputeRoot`, which re-hashes the branch above one leaf of the cached
Merkle layers; and of the handler `SubmitAggregateSelectionProof` of
`beacon-chain/rpc/validator/aggregator.go`.

Byte slices are lists of byte values.  `hashutil.Hash`, the field hashers
of `stateutil`, `bytesutil.ToBytes32` and the protobuf message types live
outside the embedded file and are parameters of the development.
-/

namespace Prysm

/-- A byte slice. -/
abbrev Bytes := List Nat

/-- The cached tree `merkleLayers [][][]byte`: layer 0 holds the leaves. -/
abbrev Layers := List (List Bytes)

/-- The value of `make([]byte, 32)`. -/
def zeroBytes : Bytes := List.replicate 32 0

/-- The body of the loop of `recomputeRoot`, run for the `n` iterations that
remain, starting at layer `i` with the running values `currentIndex` and
`root`.  The guard `layers[i] != nil && len(layers[i]) != 0 &&
neighborIdx < len(layers[i])` is the single comparison with the length of the
layer.  The result is `none` when the write `layers[i+1][parentIdx] = root`
is out of range. -/
def recomputeLoop (H : Bytes → Bytes) : Nat → Nat → Nat → Bytes → Layers → Option Layers
  | 0, _, _, _, layers => some layers
  | n + 1, i, currentIndex, root, layers =>
    let isLeft := currentIndex % 2 == 0
    let neighborIdx := currentIndex ^^^ 1
    let neighbor :=
      if neighborIdx < (layers.getD i []).length then (layers.getD i []).getD neighborIdx zeroBytes
      else zeroBytes
    let root1 := if isLeft then H (root ++ neighbor) else H (neighbor ++ root)
    let parentIdx := currentIndex / 2
    match layers[i + 1]? with
    | none => none
    | some up =>
      if parentIdx < up.length then
        recomputeLoop H n (i + 1) parentIdx root1 (layers.set (i + 1) (up.set parentIdx root1))
      else none

/-- The function `recomputeRoot(idx)` on the layers of the state: `none` when
an index is out of range (the Go code panics). -/
def recomputeRoot (H : Bytes → Bytes) (layers : Layers) (idx : Nat) : Option Layers :=
  match layers[0]? with
  | none => none
  | some layer0 =>
    match layer0[idx]? with
    | none => none
    | some root => recomputeLoop H (layers.length - 1) 0 idx root layers

/-- The assignment `merkleLayers[0][idx] = h`; `none` when out of range. -/
def writeLeaf (layers : Layers) (idx : Nat) (h : Bytes) : Option Layers :=
  match layers[0]? with
  | none => none
  | some layer0 => if idx < layer0.length then some (layers.set 0 (layer0.set idx h)) else none

/-- The top entry of the layers, the root. -/
def rootOf (layers : Layers) : Option Bytes :=
  match layers.getLast? with
  | none => none
  | some top => top[0]?

/-- One level of a bottom-up rehash: every pair of neighbours is hashed, a
missing right sibling is 32 zero bytes. -/
def hashPairs (H : Bytes → Bytes) : List Bytes → List Bytes
  | [] => []
  | [a] => [H (a ++ zeroBytes)]
  | a :: b :: rest => H (a ++ b) :: hashPairs H rest

/-- A full bottom-up rehash: the leaves followed by `n` layers, each the
pairwise hash of the one below. -/
def rebuild (H : Bytes → Bytes) : Nat → List Bytes → Layers
  | 0, layer => [layer]
  | n + 1, layer => layer :: rebuild H n (hashPairs H layer)

/-- The sizes of a layer sequence are well formed: each layer has half the
entries of the one below, rounded up, and the last layer has one entry. -/
def WellFormed : Layers → Prop
  | [] => False
  | [top] => top.length = 1
  | layer :: up :: rest => up.length = (layer.length + 1) / 2 ∧ WellFormed (up :: rest)

instance : DecidablePred WellFormed := by
  intro layers
  induction layers with
  | nil => exact instDecidableFalse
  | cons layer rest ih =>
    cases rest with
    | nil => exact inferInstanceAs (Decidable (layer.length = 1))
    | cons up rest =>
      exact @instDecidableAnd _ _ _ ih

/-- Every entry of `up` is the hash of its two children in `layer`, the left
child at the even index, a right child outside the layer read as zero bytes. -/
def ParentsOf (H : Bytes → Bytes) (layer up : List Bytes) : Prop :=
  ∀ p, p < up.length →
    up[p]? = some (H (layer.getD (2 * p) zeroBytes ++ layer.getD (2 * p + 1) zeroBytes))

/-- Every layer above layer 0 holds the hashes of the pairs of the layer below. -/
def Hashed (H : Bytes → Bytes) : Layers → Prop
  | [] => True
  | [_] => True
  | layer :: up :: rest => ParentsOf H layer up ∧ Hashed H (up :: rest)

/-- The loop of `recomputeRoot` seen from the current layer upwards: `layer`
is the layer of `currentIndex`, `up` the one that receives the parent. -/
def climb (H : Bytes → Bytes) : Nat → Bytes → List Bytes → Layers → Option Layers
  | _, _, layer, [] => some [layer]
  | currentIndex, root, layer, up :: rest =>
    let neighbor :=
      if currentIndex ^^^ 1 < layer.length then layer.getD (currentIndex ^^^ 1) zeroBytes
      else zeroBytes
    let root1 := if currentIndex % 2 == 0 then H (root ++ neighbor) else H (neighbor ++ root)
    if currentIndex / 2 < up.length then
      (climb H (currentIndex / 2) root1 (up.set (currentIndex / 2) root1) rest).map
        (fun out => layer :: out)
    else none

/-- The hash of the pair of children of parent `p` in `layer`. -/
def pairHash (H : Bytes → Bytes) (layer : List Bytes) (p : Nat) : Bytes :=
  H (layer.getD (2 * p) zeroBytes ++ layer.getD (2 * p + 1) zeroBytes)

/-! ## The state and its setters -/

/-- The protobuf message types held by the state and the type of Go `error`
values.  They are declared outside this file and are taken as parameters; a
pointer to a message is an `Option`. -/
structure Proto where
  Fork : Type
  BeaconBlockHeader : Type
  Eth1Data : Type
  Validator : Type
  PendingAttestation : Type
  Checkpoint : Type
  Err : Type

/-- The fields of `pbp2p.BeaconState` that the setters assign. -/
structure PbBeaconState (P : Proto) where
  GenesisTime : Nat
  Slot : Nat
  Fork : Option P.Fork
  LatestBlockHeader : Option P.BeaconBlockHeader
  BlockRoots : List Bytes
  StateRoots : List Bytes
  HistoricalRoots : List Bytes
  Eth1Data : Option P.Eth1Data
  Eth1DataVotes : List (Option P.Eth1Data)
  Eth1DepositIndex : Nat
  Validators : List (Option P.Validator)
  Balances : List Nat
  RandaoMixes : List Bytes
  Slashings : List Nat
  PreviousEpochAttestations : List (Option P.PendingAttestation)
  CurrentEpochAttestations : List (Option P.PendingAttestation)
  JustificationBits : Bytes
  PreviousJustifiedCheckpoint : Option P.Checkpoint
  CurrentJustifiedCheckpoint : Option P.Checkpoint
  FinalizedCheckpoint : Option P.Checkpoint

/-- The functions and constants of other packages that the setters call:
`hashutil.Hash`, the hashers of `stateutil`, `bytesutil.ToBytes32` and the two
vector lengths of `params.BeaconConfig()`.  The last two hashers are called by
no setter; they are the hashers of the fields whose setters write no leaf. -/
structure Env (P : Proto) where
  Hash : Bytes → Bytes
  Uint64Root : Nat → Bytes
  ForkRoot : Option P.Fork → Except P.Err Bytes
  BlockHeaderRoot : Option P.BeaconBlockHeader → Except P.Err Bytes
  ArraysRoot : List Bytes → Nat → String → Except P.Err Bytes
  HistoricalRootsRoot : List Bytes → Except P.Err Bytes
  Eth1Root : Option P.Eth1Data → Except P.Err Bytes
  Eth1DataVotesRoot : List (Option P.Eth1Data) → Except P.Err Bytes
  ValidatorBalancesRoot : List Nat → Except P.Err Bytes
  SlashingsRoot : List Nat → Except P.Err Bytes
  CheckpointRoot : Option P.Checkpoint → Except P.Err Bytes
  ToBytes32 : Bytes → Bytes
  SlotsPerHistoricalRoot : Nat
  EpochsPerHistoricalVector : Nat
  ValidatorsRoot : List (Option P.Validator) → Except P.Err Bytes
  AttestationsRoot : List (Option P.PendingAttestation) → Except P.Err Bytes

/-- The receiver `*BeaconState`: the stored fields, the lock (`true` while
held) and the cached layers. -/
structure BeaconState (P : Proto) where
  state : PbBeaconState P
  lock : Bool
  merkleLayers : Layers

/-- How a call ends: it returns (with `nil` or an error) and leaves a state,
it panics on an index out of range, or it blocks on the lock for ever. -/
inductive Outcome (P : Proto) where
  | returned (err : Option P.Err) (b : BeaconState P)
  | panicked
  | blocked

/-- The type `fieldIndex`. -/
abbrev fieldIndex := Nat

def slot : fieldIndex := 0
def genesisTime : fieldIndex := 1
def fork : fieldIndex := 2
def latestBlockHeader : fieldIndex := 3
def blockRoots : fieldIndex := 4
def stateRoots : fieldIndex := 5
def historicalRoots : fieldIndex := 6
def eth1Data : fieldIndex := 7
def eth1DataVotes : fieldIndex := 8
def eth1DepositIndex : fieldIndex := 9
def validators : fieldIndex := 10
def balances : fieldIndex := 11
def randaoMixes : fieldIndex := 12
def slashings : fieldIndex := 13
def previousEpochAttestations : fieldIndex := 14
def currentEpochAttestations : fieldIndex := 15
def justificationBits : fieldIndex := 16
def previousJustifiedCheckpoint : fieldIndex := 17
def currentJustifiedCheckpoint : fieldIndex := 18
def finalizedCheckpoint : fieldIndex := 19

variable {P : Proto}

/-- The four statements that end every leaf-writing setter:
`b.lock.Lock()`, `b.merkleLayers[0][idx] = root[:]`,
`b.recomputeRoot(int(idx))`, `b.lock.Unlock()`, then `return nil`. -/
def commitLeaf (env : Env P) (b : BeaconState P) (idx : fieldIndex) (root : Bytes) : Outcome P :=
  if b.lock then .blocked
  else
    match writeLeaf b.merkleLayers idx root with
    | none => .panicked
    | some written =>
      match recomputeRoot env.Hash written idx with
      | none => .panicked
      | some layers => .returned none { b with lock := false, merkleLayers := layers }

def SetGenesisTime (env : Env P) (b : BeaconState P) (val : Nat) : Outcome P :=
  let b := { b with state := { b.state with GenesisTime := val } }
  let root := env.Uint64Root val
  commitLeaf env b genesisTime root

def SetSlot (env : Env P) (b : BeaconState P) (val : Nat) : Outcome P :=
  let b := { b with state := { b.state with Slot := val } }
  let root := env.Uint64Root val
  commitLeaf env b slot root

def SetFork (env : Env P) (b : BeaconState P) (val : Option P.Fork) : Outcome P :=
  match env.ForkRoot val with
  | .error err => .returned (some err) b
  | .ok root =>
    let b := { b with state := { b.state with Fork := val } }
    commitLeaf env b fork root

def SetLatestBlockHeader (env : Env P) (b : BeaconState P)
    (val : Option P.BeaconBlockHeader) : Outcome P :=
  match env.BlockHeaderRoot val with
  | .error err => .returned (some err) b
  | .ok root =>
    let b := { b with state := { b.state with LatestBlockHeader := val } }
    commitLeaf env b latestBlockHeader root

def SetBlockRoots (env : Env P) (b : BeaconState P) (val : List Bytes) : Outcome P :=
  match env.ArraysRoot val env.SlotsPerHistoricalRoot "BlockRoots" with
  | .error err => .returned (some err) b
  | .ok root =>
    let b := { b with state := { b.state with BlockRoots := val } }
    commitLeaf env b blockRoots root

def SetStateRoots (env : Env P) (b : BeaconState P) (val : List Bytes) : Outcome P :=
  match env.ArraysRoot val env.SlotsPerHistoricalRoot "StateRoots" with
  | .error err => .returned (some err) b
  | .ok root =>
    let b := { b with state := { b.state with StateRoots := val } }
    commitLeaf env b stateRoots root

def SetHistoricalRoots (env : Env P) (b : BeaconState P) (val : List Bytes) : Outcome P :=
  match env.HistoricalRootsRoot b.state.HistoricalRoots with
  | .error err => .returned (some err) b
  | .ok root =>
    let b := { b with state := { b.state with HistoricalRoots := val } }
    commitLeaf env b historicalRoots root

def SetEth1Data (env : Env P) (b : BeaconState P) (val : Option P.Eth1Data) : Outcome P :=
  match env.Eth1Root b.state.Eth1Data with
  | .error err => .returned (some err) b
  | .ok root =>
    let b := { b with state := { b.state with Eth1Data := val } }
    commitLeaf env b eth1Data root

def SetEth1DataVotes (env : Env P) (b : BeaconState P)
    (val : List (Option P.Eth1Data)) : Outcome P :=
  match env.Eth1DataVotesRoot b.state.Eth1DataVotes with
  | .error err => .returned (some err) b
  | .ok root =>
    let b := { b with state := { b.state with Eth1DataVotes := val } }
    commitLeaf env b eth1DataVotes root

def SetEth1DepositIndex (env : Env P) (b : BeaconState P) (val : Nat) : Outcome P :=
  let b := { b with state := { b.state with Eth1DepositIndex := val } }
  let root := env.Uint64Root val
  commitLeaf env b eth1DepositIndex root

def SetValidators (_env : Env P) (b : BeaconState P)
    (val : List (Option P.Validator)) : Outcome P :=
  .returned none { b with state := { b.state with Validators := val } }

def SetBalances (env : Env P) (b : BeaconState P) (val : List Nat) : Outcome P :=
  match env.ValidatorBalancesRoot b.state.Balances with
  | .error err => .returned (some err) b
  | .ok root =>
    let b := { b with state := { b.state with Balances := val } }
    commitLeaf env b balances root

def SetRandaoMixes (env : Env P) (b : BeaconState P) (val : List Bytes) : Outcome P :=
  match env.ArraysRoot val env.EpochsPerHistoricalVector "RandaoMixes" with
  | .error err => .returned (some err) b
  | .ok root =>
    let b := { b with state := { b.state with RandaoMixes := val } }
    commitLeaf env b randaoMixes root

def SetSlashings (env : Env P) (b : BeaconState P) (val : List Nat) : Outcome P :=
  match env.SlashingsRoot b.state.Slashings with
  | .error err => .returned (some err) b
  | .ok root =>
    let b := { b with state := { b.state with Slashings := val } }
    commitLeaf env b slashings root

def SetPreviousEpochAttestations (_env : Env P) (b : BeaconState P)
    (val : List (Option P.PendingAttestation)) : Outcome P :=
  .returned none { b with state := { b.state with PreviousEpochAttestations := val } }

def SetCurrentEpochAttestations (_env : Env P) (b : BeaconState P)
    (val : List (Option P.PendingAttestation)) : Outcome P :=
  .returned none { b with state := { b.state with CurrentEpochAttestations := val } }

/-- The source has no `return` at the end of this setter; falling off the end
is read as `return nil`. -/
def SetJustificationBits (env : Env P) (b : BeaconState P) (val : Bytes) : Outcome P :=
  let root := env.ToBytes32 b.state.JustificationBits
  let b := { b with state := { b.state with JustificationBits := val } }
  commitLeaf env b justificationBits root

def SetPreviousJustifiedCheckpoint (env : Env P) (b : BeaconState P)
    (val : Option P.Checkpoint) : Outcome P :=
  match env.CheckpointRoot b.state.PreviousJustifiedCheckpoint with
  | .error err => .returned (some err) b
  | .ok root =>
    let b := { b with state := { b.state with PreviousJustifiedCheckpoint := val } }
    commitLeaf env b previousJustifiedCheckpoint root

def SetCurrentJustifiedCheckpoint (env : Env P) (b : BeaconState P)
    (val : Option P.Checkpoint) : Outcome P :=
  match env.CheckpointRoot b.state.CurrentJustifiedCheckpoint with
  | .error err => .returned (some err) b
  | .ok root =>
    let b := { b with state := { b.state with CurrentJustifiedCheckpoint := val } }
    commitLeaf env b currentJustifiedCheckpoint root

def SetFinalizedCheckpoint (env : Env P) (b : BeaconState P)
    (val : Option P.Checkpoint) : Outcome P :=
  match env.CheckpointRoot b.state.FinalizedCheckpoint with
  | .error err => .returned (some err) b
  | .ok root =>
    let b := { b with state := { b.state with FinalizedCheckpoint := val } }
    commitLeaf env b finalizedCheckpoint root

/-- A call of one of the twenty setters with its argument. -/
inductive Call (P : Proto) where
  | SetGenesisTime (val : Nat)
  | SetSlot (val : Nat)
  | SetFork (val : Option P.Fork)
  | SetLatestBlockHeader (val : Option P.BeaconBlockHeader)
  | SetBlockRoots (val : List Bytes)
  | SetStateRoots (val : List Bytes)
  | SetHistoricalRoots (val : List Bytes)
  | SetEth1Data (val : Option P.Eth1Data)
  | SetEth1DataVotes (val : List (Option P.Eth1Data))
  | SetEth1DepositIndex (val : Nat)
  | SetValidators (val : List (Option P.Validator))
  | SetBalances (val : List Nat)
  | SetRandaoMixes (val : List Bytes)
  | SetSlashings (val : List Nat)
  | SetPreviousEpochAttestations (val : List (Option P.PendingAttestation))
  | SetCurrentEpochAttestations (val : List (Option P.PendingAttestation))
  | SetJustificationBits (val : Bytes)
  | SetPreviousJustifiedCheckpoint (val : Option P.Checkpoint)
  | SetCurrentJustifiedCheckpoint (val : Option P.Checkpoint)
  | SetFinalizedCheckpoint (val : Option P.Checkpoint)

/-- Running a call on a state. -/
def runCall (env : Env P) (b : BeaconState P) : Call P → Outcome P
  | .SetGenesisTime val => SetGenesisTime env b val
  | .SetSlot val => SetSlot env b val
  | .SetFork val => SetFork env b val
  | .SetLatestBlockHeader val => SetLatestBlockHeader env b val
  | .SetBlockRoots val => SetBlockRoots env b val
  | .SetStateRoots val => SetStateRoots env b val
  | .SetHistoricalRoots val => SetHistoricalRoots env b val
  | .SetEth1Data val => SetEth1Data env b val
  | .SetEth1DataVotes val => SetEth1DataVotes env b val
  | .SetEth1DepositIndex val => SetEth1DepositIndex env b val
  | .SetValidators val => SetValidators env b val
  | .SetBalances val => SetBalances env b val
  | .SetRandaoMixes val => SetRandaoMixes env b val
  | .SetSlashings val => SetSlashings env b val
  | .SetPreviousEpochAttestations val => SetPreviousEpochAttestations env b val
  | .SetCurrentEpochAttestations val => SetCurrentEpochAttestations env b val
  | .SetJustificationBits val => SetJustificationBits env b val
  | .SetPreviousJustifiedCheckpoint val => SetPreviousJustifiedCheckpoint env b val
  | .SetCurrentJustifiedCheckpoint val => SetCurrentJustifiedCheckpoint env b val
  | .SetFinalizedCheckpoint val => SetFinalizedCheckpoint env b val

/-- The index of the leaf that the setter of a call writes, the constant in
its statement `b.merkleLayers[0][...] = root[:]`; `none` for the three setters
that have no such statement. -/
def leafIndexOf : Call P → Option fieldIndex
  | .SetGenesisTime _ => some genesisTime
  | .SetSlot _ => some slot
  | .SetFork _ => some fork
  | .SetLatestBlockHeader _ => some latestBlockHeader
  | .SetBlockRoots _ => some blockRoots
  | .SetStateRoots _ => some stateRoots
  | .SetHistoricalRoots _ => some historicalRoots
  | .SetEth1Data _ => some eth1Data
  | .SetEth1DataVotes _ => some eth1DataVotes
  | .SetEth1DepositIndex _ => some eth1DepositIndex
  | .SetValidators _ => none
  | .SetBalances _ => some balances
  | .SetRandaoMixes _ => some randaoMixes
  | .SetSlashings _ => some slashings
  | .SetPreviousEpochAttestations _ => none
  | .SetCurrentEpochAttestations _ => none
  | .SetJustificationBits _ => some justificationBits
  | .SetPreviousJustifiedCheckpoint _ => some previousJustifiedCheckpoint
  | .SetCurrentJustifiedCheckpoint _ => some currentJustifiedCheckpoint
  | .SetFinalizedCheckpoint _ => some finalizedCheckpoint

/-- The leaf that the setter of a call computes before it assigns the field:
the result of its hasher call, with the argument the source passes to the
hasher (`ok` for the hashers that cannot fail); `none` for the three setters
that compute no leaf. -/
def computedLeaf (env : Env P) (b : BeaconState P) : Call P → Option (Except P.Err Bytes)
  | .SetGenesisTime val => some (.ok (env.Uint64Root val))
  | .SetSlot val => some (.ok (env.Uint64Root val))
  | .SetFork val => some (env.ForkRoot val)
  | .SetLatestBlockHeader val => some (env.BlockHeaderRoot val)
  | .SetBlockRoots val => some (env.ArraysRoot val env.SlotsPerHistoricalRoot "BlockRoots")
  | .SetStateRoots val => some (env.ArraysRoot val env.SlotsPerHistoricalRoot "StateRoots")
  | .SetHistoricalRoots _ => some (env.HistoricalRootsRoot b.state.HistoricalRoots)
  | .SetEth1Data _ => some (env.Eth1Root b.state.Eth1Data)
  | .SetEth1DataVotes _ => some (env.Eth1DataVotesRoot b.state.Eth1DataVotes)
  | .SetEth1DepositIndex val => some (.ok (env.Uint64Root val))
  | .SetValidators _ => none
  | .SetBalances _ => some (env.ValidatorBalancesRoot b.state.Balances)
  | .SetRandaoMixes val => some (env.ArraysRoot val env.EpochsPerHistoricalVector "RandaoMixes")
  | .SetSlashings _ => some (env.SlashingsRoot b.state.Slashings)
  | .SetPreviousEpochAttestations _ => none
  | .SetCurrentEpochAttestations _ => none
  | .SetJustificationBits _ => some (.ok (env.ToBytes32 b.state.JustificationBits))
  | .SetPreviousJustifiedCheckpoint _ =>
    some (env.CheckpointRoot b.state.PreviousJustifiedCheckpoint)
  | .SetCurrentJustifiedCheckpoint _ =>
    some (env.CheckpointRoot b.state.CurrentJustifiedCheckpoint)
  | .SetFinalizedCheckpoint _ => some (env.CheckpointRoot b.state.FinalizedCheckpoint)

/-- The assignment `b.state.X = val` of the setter of a call. -/
def assignField (b : BeaconState P) : Call P → BeaconState P
  | .SetGenesisTime val => { b with state := { b.state with GenesisTime := val } }
  | .SetSlot val => { b with state := { b.state with Slot := val } }
  | .SetFork val => { b with state := { b.state with Fork := val } }
  | .SetLatestBlockHeader val => { b with state := { b.state with LatestBlockHeader := val } }
  | .SetBlockRoots val => { b with state := { b.state with BlockRoots := val } }
  | .SetStateRoots val => { b with state := { b.state with StateRoots := val } }
  | .SetHistoricalRoots val => { b with state := { b.state with HistoricalRoots := val } }
  | .SetEth1Data val => { b with state := { b.state with Eth1Data := val } }
  | .SetEth1DataVotes val => { b with state := { b.state with Eth1DataVotes := val } }
  | .SetEth1DepositIndex val => { b with state := { b.state with Eth1DepositIndex := val } }
  | .SetValidators val => { b with state := { b.state with Validators := val } }
  | .SetBalances val => { b with state := { b.state with Balances := val } }
  | .SetRandaoMixes val => { b with state := { b.state with RandaoMixes := val } }
  | .SetSlashings val => { b with state := { b.state with Slashings := val } }
  | .SetPreviousEpochAttestations val =>
    { b with state := { b.state with PreviousEpochAttestations := val } }
  | .SetCurrentEpochAttestations val =>
    { b with state := { b.state with CurrentEpochAttestations := val } }
  | .SetJustificationBits val => { b with state := { b.state with JustificationBits := val } }
  | .SetPreviousJustifiedCheckpoint val =>
    { b with state := { b.state with PreviousJustifiedCheckpoint := val } }
  | .SetCurrentJustifiedCheckpoint val =>
    { b with state := { b.state with CurrentJustifiedCheckpoint := val } }
  | .SetFinalizedCheckpoint val =>
    { b with state := { b.state with FinalizedCheckpoint := val } }

/-- The hasher of the field of a call applied to the incoming value: what
the field's leaf is after the call when the leaf is fresh. -/
def hasherOfNew (env : Env P) : Call P → Except P.Err Bytes
  | .SetGenesisTime val => .ok (env.Uint64Root val)
  | .SetSlot val => .ok (env.Uint64Root val)
  | .SetFork val => env.ForkRoot val
  | .SetLatestBlockHeader val => env.BlockHeaderRoot val
  | .SetBlockRoots val => env.ArraysRoot val env.SlotsPerHistoricalRoot "BlockRoots"
  | .SetStateRoots val => env.ArraysRoot val env.SlotsPerHistoricalRoot "StateRoots"
  | .SetHistoricalRoots val => env.HistoricalRootsRoot val
  | .SetEth1Data val => env.Eth1Root val
  | .SetEth1DataVotes val => env.Eth1DataVotesRoot val
  | .SetEth1DepositIndex val => .ok (env.Uint64Root val)
  | .SetValidators val => env.ValidatorsRoot val
  | .SetBalances val => env.ValidatorBalancesRoot val
  | .SetRandaoMixes val => env.ArraysRoot val env.EpochsPerHistoricalVector "RandaoMixes"
  | .SetSlashings val => env.SlashingsRoot val
  | .SetPreviousEpochAttestations val => env.AttestationsRoot val
  | .SetCurrentEpochAttestations val => env.AttestationsRoot val
  | .SetJustificationBits val => .ok (env.ToBytes32 val)
  | .SetPreviousJustifiedCheckpoint val => env.CheckpointRoot val
  | .SetCurrentJustifiedCheckpoint val => env.CheckpointRoot val
  | .SetFinalizedCheckpoint val => env.CheckpointRoot val

/-- The layers of a state are well formed and layer 0 has a leaf for each of
the twenty field indices. -/
def WellFormedState (b : BeaconState P) : Prop :=
  WellFormed b.merkleLayers ∧ 20 ≤ (b.merkleLayers.getD 0 []).length

/-- The leaf stored for index `i`. -/
def leafAt (b : BeaconState P) (i : Nat) : Option Bytes :=
  match b.merkleLayers[0]? with
  | none => none
  | some layer0 => layer0[i]?

/-- Modelled from the spec: the leaves of a tree built from scratch, which the
constructor (not in the embedded file) computes: the hasher of every field
applied to its stored value, in the spec's order of the fields, genesis time
first and slot second. -/
def fieldRoots (env : Env P) (st : PbBeaconState P) : Except P.Err (List Bytes) := do
  let forkRoot ← env.ForkRoot st.Fork
  let headerRoot ← env.BlockHeaderRoot st.LatestBlockHeader
  let blockRootsRoot ← env.ArraysRoot st.BlockRoots env.SlotsPerHistoricalRoot "BlockRoots"
  let stateRootsRoot ← env.ArraysRoot st.StateRoots env.SlotsPerHistoricalRoot "StateRoots"
  let historicalRootsRoot ← env.HistoricalRootsRoot st.HistoricalRoots
  let eth1Root ← env.Eth1Root st.Eth1Data
  let votesRoot ← env.Eth1DataVotesRoot st.Eth1DataVotes
  let validatorsRoot ← env.ValidatorsRoot st.Validators
  let balancesRoot ← env.ValidatorBalancesRoot st.Balances
  let randaoRoot ← env.ArraysRoot st.RandaoMixes env.EpochsPerHistoricalVector "RandaoMixes"
  let slashingsRoot ← env.SlashingsRoot st.Slashings
  let prevAttsRoot ← env.AttestationsRoot st.PreviousEpochAttestations
  let currAttsRoot ← env.AttestationsRoot st.CurrentEpochAttestations
  let prevRoot ← env.CheckpointRoot st.PreviousJustifiedCheckpoint
  let currRoot ← env.CheckpointRoot st.CurrentJustifiedCheckpoint
  let finalRoot ← env.CheckpointRoot st.FinalizedCheckpoint
  pure [env.Uint64Root st.GenesisTime, env.Uint64Root st.Slot, forkRoot, headerRoot,
    blockRootsRoot, stateRootsRoot, historicalRootsRoot, eth1Root, votesRoot,
    env.Uint64Root st.Eth1DepositIndex, validatorsRoot, balancesRoot, randaoRoot,
    slashingsRoot, prevAttsRoot, currAttsRoot, env.ToBytes32 st.JustificationBits,
    prevRoot, currRoot, finalRoot]

/-- Modelled from the spec: the root of a full bottom-up rehash of twenty
leaves, through layers of 20, 10, 5, 3, 2 and 1 entries. -/
def rootFromScratch (env : Env P) (st : PbBeaconState P) : Option Bytes :=
  match fieldRoots env st with
  | .error _ => none
  | .ok leaves => rootOf (rebuild env.Hash 5 leaves)

/-- Running a sequence of calls, each on the state the one before returned
with `nil`; `none` when a call fails, panics or blocks. -/
def runCalls (env : Env P) : BeaconState P → List (Call P) → Option (BeaconState P)
  | b, [] => some b
  | b, call :: calls =>
    match runCall env b call with
    | .returned none b1 => runCalls env b1 calls
    | _ => none

/-! ## SSZ merkleization -/

/-- The least `d` with `n ≤ 2 ^ d`, searched upwards from `d` with `fuel`
steps left. -/
def ceilLog2From (n : Nat) : Nat → Nat → Nat
  | 0, d => d
  | fuel + 1, d => if n ≤ 2 ^ d then d else ceilLog2From n fuel (d + 1)

/-- The least `d` with `n ≤ 2 ^ d`. -/
def ceilLog2 (n : Nat) : Nat := ceilLog2From n n 0

/-- The root of the perfect binary hash tree of depth `d` over `2 ^ d` chunks. -/
def perfectRoot (H : Bytes → Bytes) : Nat → List Bytes → Bytes
  | 0, chunks => chunks.headD zeroBytes
  | d + 1, chunks =>
    H (perfectRoot H d (chunks.take (2 ^ d)) ++ perfectRoot H d (chunks.drop (2 ^ d)))

/-- Modelled from the spec: the SSZ merkleization of a list of 32-byte leaves,
the root of the perfect binary hash tree over the leaves padded with zero
chunks up to the next power of two. -/
def sszMerkleize (H : Bytes → Bytes) (leaves : List Bytes) : Bytes :=
  let d := ceilLog2 leaves.length
  perfectRoot H d (leaves ++ List.replicate (2 ^ d - leaves.length) zeroBytes)

/-! ## Concrete data -/

/-- A small stand-in for `hashutil.Hash`, used where a statement is evaluated
on concrete data: a polynomial checksum of the input, written out as 32
little-endian bytes. -/
def toyHash (bs : Bytes) : Bytes :=
  let n := bs.foldl (fun acc b => (acc * 257 + b + 1) % 2 ^ 256) 0
  (List.range 32).map (fun i => n / 256 ^ i % 256)

/-- A 32-byte value whose every byte is `b`. -/
def fill (b : Nat) : Bytes := List.replicate 32 b

/-- The 32 little-endian bytes of a number. -/
def le32 (n : Nat) : Bytes := (List.range 32).map (fun i => n / 256 ^ i % 256)

/-- Messages are numbers and errors are strings in the concrete data. -/
abbrev toyProto : Proto where
  Fork := Nat
  BeaconBlockHeader := Nat
  Eth1Data := Nat
  Validator := Nat
  PendingAttestation := Nat
  Checkpoint := Nat
  Err := String

/-- The stand-in hasher of a pointer to a message: a nil pointer is rejected. -/
def toyMessageRoot (name : String) : Option Nat → Except String Bytes
  | none => .error ("nil " ++ name)
  | some m => .ok (toyHash (le32 m))

/-- The stand-in hasher of a vector of fixed length. -/
def toyArraysRoot (val : List Bytes) (length : Nat) (name : String) : Except String Bytes :=
  if val.length = length then .ok (toyHash val.flatten) else .error (name ++ " length")

/-- Stand-ins for the functions of the other packages; both vector lengths
are 2. -/
def toyEnv : Env toyProto where
  Hash := toyHash
  Uint64Root := le32
  ForkRoot := toyMessageRoot "fork"
  BlockHeaderRoot := toyMessageRoot "header"
  ArraysRoot := toyArraysRoot
  HistoricalRootsRoot := fun val => .ok (toyHash val.flatten)
  Eth1Root := toyMessageRoot "eth1 data"
  Eth1DataVotesRoot := fun val => .ok (toyHash (val.map (fun v => v.getD 0)))
  ValidatorBalancesRoot := fun val => .ok (toyHash val)
  SlashingsRoot := fun val => .ok (toyHash val)
  CheckpointRoot := toyMessageRoot "checkpoint"
  ToBytes32 := fun bs => (bs ++ zeroBytes).take 32
  SlotsPerHistoricalRoot := 2
  EpochsPerHistoricalVector := 2
  ValidatorsRoot := fun val => .ok (toyHash (val.map (fun v => v.getD 0)))
  AttestationsRoot := fun val => .ok (toyHash (val.map (fun v => v.getD 0)))

/-- Stored fields of a small state. -/
def toyFields : PbBeaconState toyProto where
  GenesisTime := 0
  Slot := 0
  Fork := some 1
  LatestBlockHeader := some 2
  BlockRoots := [fill 0, fill 0]
  StateRoots := [fill 0, fill 0]
  HistoricalRoots := []
  Eth1Data := some 3
  Eth1DataVotes := []
  Eth1DepositIndex := 0
  Validators := []
  Balances := []
  RandaoMixes := [fill 0, fill 0]
  Slashings := [0, 0]
  PreviousEpochAttestations := []
  CurrentEpochAttestations := []
  JustificationBits := [0]
  PreviousJustifiedCheckpoint := some 0
  CurrentJustifiedCheckpoint := some 0
  FinalizedCheckpoint := some 0

/-- The layers of a tree built from scratch over the fields of a state. -/
def layersFromScratch (env : Env P) (st : PbBeaconState P) : Layers :=
  match fieldRoots env st with
  | .error _ => []
  | .ok leaves => rebuild env.Hash 5 leaves

/-- A small state whose layers were built from scratch over its fields. -/
def toyState : BeaconState toyProto where
  state := toyFields
  lock := false
  merkleLayers := layersFromScratch toyEnv toyFields

/-! ## The recomputed branch in closed form -/

/-- The layers after `layer[cur]` is replaced by `v` and every ancestor of
`cur` is replaced by the hash of its two children: what writing a leaf and
running `recomputeRoot` leaves when no index is out of range. -/
def branch (H : Bytes → Bytes) : Nat → Bytes → Layers → Layers
  | _, _, [] => []
  | cur, v, layer :: ups =>
    layer.set cur v :: branch H (cur / 2) (pairHash H (layer.set cur v) (cur / 2)) ups

/-! ## The lock, statement by statement -/

/-- The call `b.lock.Lock()`: the lock is taken when it is free; `none` when
it is held, the caller then waits for ever. -/
def Lock (b : BeaconState P) : Option (BeaconState P) :=
  if b.lock then none else some { b with lock := true }

/-- The call `b.lock.Unlock()`. -/
def Unlock (b : BeaconState P) : BeaconState P := { b with lock := false }

/-- The end of a leaf-writing setter with the lock taken and released by
`Lock` and `Unlock`; `commitLeaf` is this function with the two calls
unfolded. -/
def commitLeafSteps (env : Env P) (b : BeaconState P) (idx : fieldIndex) (root : Bytes) :
    Outcome P :=
  match Lock b with
  | none => .blocked
  | some locked =>
    match writeLeaf locked.merkleLayers idx root with
    | none => .panicked
    | some written =>
      match recomputeRoot env.Hash written idx with
      | none => .panicked
      | some layers => .returned none (Unlock { locked with merkleLayers := layers })

/-! ## The loop with its index and its hash calls recorded -/

/-- The loop of `recomputeRoot` as in `recomputeLoop`, returning besides the
layers the value of `currentIndex` at every test of the loop condition and
the number of calls of `hashutil.Hash`. -/
def recomputeLoopStats (H : Bytes → Bytes) :
    Nat → Nat → Nat → Bytes → Layers → Option (Layers × List Nat × Nat)
  | 0, _, currentIndex, _, layers => some (layers, [currentIndex], 0)
  | n + 1, i, currentIndex, root, layers =>
    let isLeft := currentIndex % 2 == 0
    let neighborIdx := currentIndex ^^^ 1
    let neighbor :=
      if neighborIdx < (layers.getD i []).length then (layers.getD i []).getD neighborIdx zeroBytes
      else zeroBytes
    let root1 := if isLeft then H (root ++ neighbor) else H (neighbor ++ root)
    let parentIdx := currentIndex / 2
    match layers[i + 1]? with
    | none => none
    | some up =>
      if parentIdx < up.length then
        match recomputeLoopStats H n (i + 1) parentIdx root1
            (layers.set (i + 1) (up.set parentIdx root1)) with
        | none => none
        | some (out, indices, hashes) => some (out, currentIndex :: indices, hashes + 1)
      else none

/-- The function `recomputeRoot` with the record of `recomputeLoopStats`. -/
def recomputeRootStats (H : Bytes → Bytes) (layers : Layers) (idx : Nat) :
    Option (Layers × List Nat × Nat) :=
  match layers[0]? with
  | none => none
  | some layer0 =>
    match layer0[idx]? with
    | none => none
    | some root => recomputeLoopStats H (layers.length - 1) 0 idx root layers

/-- The layers stop at the first layer of one entry: every layer but the last
has at least two entries. -/
def Minimal : Layers → Prop
  | [] => True
  | [_] => True
  | layer :: up :: rest => 2 ≤ layer.length ∧ Minimal (up :: rest)

instance : DecidablePred Minimal := by
  intro layers
  induction layers with
  | nil => exact instDecidableTrue
  | cons layer rest ih =>
    cases rest with
    | nil => exact instDecidableTrue
    | cons up rest => exact @instDecidableAnd _ _ _ ih

/-! ## The aggregator server -/

/-- The gRPC status codes used by `SubmitAggregateSelectionProof`. -/
inductive Code where
  | Unavailable
  | Internal
  | InvalidArgument
  deriving DecidableEq, Repr

/-- The error returned by the handler: a status built by `status.Error` or
`status.Errorf` (with the error formatted into the message as `cause`), or the
error of `helpers.BeaconCommittee` returned as it is. -/
inductive RpcError (Err : Type) where
  | status (code : Code) (msg : String) (cause : Option Err)
  | raw (err : Err)

/-- The fields of `ethpb.AggregateSelectionRequest` that the handler reads. -/
structure AggregateSelectionRequest where
  Slot : Nat
  CommitteeIndex : Nat
  PublicKey : Bytes
  SlotSignature : Bytes

/-- The message `ethpb.AggregateAttestationAndProof`. -/
structure AggregateAttestationAndProof (Att : Type) where
  Aggregate : Att
  SelectionProof : Bytes
  AggregatorIndex : Nat

/-- The collaborators of the handler, all outside the embedded file: the
fields of `Server` (`SyncChecker`, `HeadFetcher`, `AttPool`), the head state,
the functions of `helpers` and `bytesutil`, and `AggregationBits.Count()`.
The two writes to the pool are taken by the error they return. -/
structure AggregatorEnv (Att Err State : Type) where
  Syncing : Bool
  HeadState : Except Err State
  ValidatorIndexByPubkey : State → Bytes → Option Nat
  ToBytes48 : Bytes → Bytes
  SlotToEpoch : Nat → Nat
  HeadValidatorsIndices : Nat → Except Err (List Nat)
  HeadSeed : Nat → Except Err Bytes
  BeaconCommittee : List Nat → Bytes → Nat → Nat → Except Err (List Nat)
  IsAggregator : Nat → Bytes → Except Err Bool
  UnAggregatedAttestationsBySlotIndex : Nat → Nat → List Att
  AggregatedAttestationsBySlotIndex : Nat → Nat → List Att
  AggregateAttestations : List Att → Except Err (List Att)
  SaveAggregatedAttestations : List Att → Option Err
  DeleteUnaggregatedAttestations : List Att → Option Err
  Count : Att → Nat

/-- The loop `for _, aggregatedAtt := range aggregatedAtts[1:]` with the
running value `best`. -/
def bestOf {Att : Type} (count : Att → Nat) : Att → List Att → Att
  | best, [] => best
  | best, aggregatedAtt :: rest =>
    bestOf count (if count aggregatedAtt > count best then aggregatedAtt else best) rest

/-- The selection of the best aggregated attestation: the check
`len(aggregatedAtts) == 0`, `best := aggregatedAtts[0]` and the loop. -/
def selectBest {Att Err : Type} (count : Att → Nat) :
    List Att → Except (RpcError Err) Att
  | [] => .error (.status .Internal "No aggregated attestation in beacon node" none)
  | first :: rest => .ok (bestOf count first rest)

/-- The handler `SubmitAggregateSelectionProof`; the tracing span is left out. -/
def SubmitAggregateSelectionProof {Att Err State : Type} (as : AggregatorEnv Att Err State)
    (req : AggregateSelectionRequest) :
    Except (RpcError Err) (AggregateAttestationAndProof Att) :=
  if as.Syncing then
    .error (.status .Unavailable "Syncing to latest head, not ready to respond" none)
  else
    match as.HeadState with
    | .error err => .error (.status .Internal "Could not get head state: %v" (some err))
    | .ok headstate =>
      match as.ValidatorIndexByPubkey headstate (as.ToBytes48 req.PublicKey) with
      | none => .error (.status .Internal "Could not locate validator index in DB" none)
      | some validatorIndex =>
        let epoch := as.SlotToEpoch req.Slot
        match as.HeadValidatorsIndices epoch with
        | .error err => .error (.status .Internal "Could not get validators: %v" (some err))
        | .ok activeValidatorIndices =>
          match as.HeadSeed epoch with
          | .error err => .error (.status .Internal "Could not get seed: %v" (some err))
          | .ok seed =>
            match as.BeaconCommittee activeValidatorIndices seed req.Slot req.CommitteeIndex with
            | .error err => .error (.raw err)
            | .ok committee =>
              match as.IsAggregator committee.length req.SlotSignature with
              | .error err =>
                .error (.status .Internal "Could not get aggregator status: %v" (some err))
              | .ok false =>
                .error (.status .InvalidArgument "Validator is not an aggregator" none)
              | .ok true =>
                let unaggregatedAtts :=
                  as.UnAggregatedAttestationsBySlotIndex req.Slot req.CommitteeIndex
                let aggregatedAtts :=
                  as.AggregatedAttestationsBySlotIndex req.Slot req.CommitteeIndex
                match as.AggregateAttestations (aggregatedAtts ++ unaggregatedAtts) with
                | .error err =>
                  .error (.status .Internal "Could not get aggregate attestations: %v"
                    (some err))
                | .ok aggregatedAtts =>
                  match as.SaveAggregatedAttestations aggregatedAtts with
                  | some err =>
                    .error (.status .Internal "Could not save aggregated attestations: %v"
                      (some err))
                  | none =>
                    match as.DeleteUnaggregatedAttestations unaggregatedAtts with
                    | some err =>
                      .error (.status .Internal
                        "Could not delete unaggregated attestations: %v" (some err))
                    | none =>
                      match selectBest as.Count aggregatedAtts with
                      | .error err => .error err
                      | .ok best =>
                        .ok { Aggregate := best, SelectionProof := req.SlotSignature,
                              AggregatorIndex := validatorIndex }

/-- A server for the concrete data: attestations are their bit counts. -/
def toyAggregator (atts : List Nat) : AggregatorEnv Nat String Unit where
  Syncing := false
  HeadState := .ok ()
  ValidatorIndexByPubkey := fun _ _ => some 5
  ToBytes48 := fun bs => (bs ++ List.replicate 48 0).take 48
  SlotToEpoch := fun s => s / 32
  HeadValidatorsIndices := fun _ => .ok [0, 1, 2, 3, 4, 5]
  HeadSeed := fun _ => .ok zeroBytes
  BeaconCommittee := fun indices _ _ _ => .ok indices
  IsAggregator := fun _ _ => .ok true
  UnAggregatedAttestationsBySlotIndex := fun _ _ => []
  AggregatedAttestationsBySlotIndex := fun _ _ => atts
  AggregateAttestations := fun l => .ok l
  SaveAggregatedAttestations := fun _ => none
  DeleteUnaggregatedAttestations := fun _ => none
  Count := fun a => a / 10

/-! ## Which value a setter hashes -/

/-- The twenty setters by name. -/
inductive Setter where
  | SetGenesisTime
  | SetSlot
  | SetFork
  | SetLatestBlockHeader
  | SetBlockRoots
  | SetStateRoots
  | SetHistoricalRoots
  | SetEth1Data
  | SetEth1DataVotes
  | SetEth1DepositIndex
  | SetValidators
  | SetBalances
  | SetRandaoMixes
  | SetSlashings
  | SetPreviousEpochAttestations
  | SetCurrentEpochAttestations
  | SetJustificationBits
  | SetPreviousJustifiedCheckpoint
  | SetCurrentJustifiedCheckpoint
  | SetFinalizedCheckpoint
  deriving DecidableEq, Repr

/-- The setter of a call. -/
def setterOf : Call P → Setter
  | .SetGenesisTime _ => .SetGenesisTime
  | .SetSlot _ => .SetSlot
  | .SetFork _ => .SetFork
  | .SetLatestBlockHeader _ => .SetLatestBlockHeader
  | .SetBlockRoots _ => .SetBlockRoots
  | .SetStateRoots _ => .SetStateRoots
  | .SetHistoricalRoots _ => .SetHistoricalRoots
  | .SetEth1Data _ => .SetEth1Data
  | .SetEth1DataVotes _ => .SetEth1DataVotes
  | .SetEth1DepositIndex _ => .SetEth1DepositIndex
  | .SetValidators _ => .SetValidators
  | .SetBalances _ => .SetBalances
  | .SetRandaoMixes _ => .SetRandaoMixes
  | .SetSlashings _ => .SetSlashings
  | .SetPreviousEpochAttestations _ => .SetPreviousEpochAttestations
  | .SetCurrentEpochAttestations _ => .SetCurrentEpochAttestations
  | .SetJustificationBits _ => .SetJustificationBits
  | .SetPreviousJustifiedCheckpoint _ => .SetPreviousJustifiedCheckpoint
  | .SetCurrentJustifiedCheckpoint _ => .SetCurrentJustifiedCheckpoint
  | .SetFinalizedCheckpoint _ => .SetFinalizedCheckpoint

/-- The hasher of the field of a call applied to the value stored in the
state before the call. -/
def hasherOfStored (env : Env P) (b : BeaconState P) : Call P → Except P.Err Bytes
  | .SetGenesisTime _ => .ok (env.Uint64Root b.state.GenesisTime)
  | .SetSlot _ => .ok (env.Uint64Root b.state.Slot)
  | .SetFork _ => env.ForkRoot b.state.Fork
  | .SetLatestBlockHeader _ => env.BlockHeaderRoot b.state.LatestBlockHeader
  | .SetBlockRoots _ => env.ArraysRoot b.state.BlockRoots env.SlotsPerHistoricalRoot "BlockRoots"
  | .SetStateRoots _ => env.ArraysRoot b.state.StateRoots env.SlotsPerHistoricalRoot "StateRoots"
  | .SetHistoricalRoots _ => env.HistoricalRootsRoot b.state.HistoricalRoots
  | .SetEth1Data _ => env.Eth1Root b.state.Eth1Data
  | .SetEth1DataVotes _ => env.Eth1DataVotesRoot b.state.Eth1DataVotes
  | .SetEth1DepositIndex _ => .ok (env.Uint64Root b.state.Eth1DepositIndex)
  | .SetValidators _ => env.ValidatorsRoot b.state.Validators
  | .SetBalances _ => env.ValidatorBalancesRoot b.state.Balances
  | .SetRandaoMixes _ =>
    env.ArraysRoot b.state.RandaoMixes env.EpochsPerHistoricalVector "RandaoMixes"
  | .SetSlashings _ => env.SlashingsRoot b.state.Slashings
  | .SetPreviousEpochAttestations _ => env.AttestationsRoot b.state.PreviousEpochAttestations
  | .SetCurrentEpochAttestations _ => env.AttestationsRoot b.state.CurrentEpochAttestations
  | .SetJustificationBits _ => .ok (env.ToBytes32 b.state.JustificationBits)
  | .SetPreviousJustifiedCheckpoint _ => env.CheckpointRoot b.state.PreviousJustifiedCheckpoint
  | .SetCurrentJustifiedCheckpoint _ => env.CheckpointRoot b.state.CurrentJustifiedCheckpoint
  | .SetFinalizedCheckpoint _ => env.CheckpointRoot b.state.FinalizedCheckpoint

/-- The setter writes a leaf: each of its calls has a leaf index. -/
def WritesLeaf (s : Setter) : Prop :=
  ∀ (P : Proto) (call : Call P), setterOf call = s → leafIndexOf call ≠ none

/-- The setter computes its leaf from the incoming value, for every
environment, state and argument. -/
def HashesNew (s : Setter) : Prop :=
  ∀ (P : Proto) (env : Env P) (b : BeaconState P) (call : Call P), setterOf call = s →
    computedLeaf env b call = some (hasherOfNew env call)

/-- The setter computes its leaf from the value stored before the call, for
every environment, state and argument. -/
def HashesOld (s : Setter) : Prop :=
  ∀ (P : Proto) (env : Env P) (b : BeaconState P) (call : Call P), setterOf call = s →
    computedLeaf env b call = some (hasherOfStored env b call)

/-- The setters that hash the incoming value. -/
def newValueSetters : List Setter :=
  [.SetGenesisTime, .SetSlot, .SetFork, .SetLatestBlockHeader, .SetBlockRoots, .SetStateRoots,
    .SetEth1DepositIndex, .SetRandaoMixes]

/-- The setters that hash the value stored before the call. -/
def oldValueSetters : List Setter :=
  [.SetHistoricalRoots, .SetEth1Data, .SetEth1DataVotes, .SetBalances, .SetSlashings,
    .SetJustificationBits, .SetPreviousJustifiedCheckpoint, .SetCurrentJustifiedCheckpoint,
    .SetFinalizedCheckpoint]

/-- A call of each setter on the concrete data, with an argument that differs
from the stored value. -/
def toyCall : Setter → Call toyProto
  | .SetGenesisTime => .SetGenesisTime 7
  | .SetSlot => .SetSlot 7
  | .SetFork => .SetFork (some 7)
  | .SetLatestBlockHeader => .SetLatestBlockHeader (some 7)
  | .SetBlockRoots => .SetBlockRoots [fill 7, fill 7]
  | .SetStateRoots => .SetStateRoots [fill 7, fill 7]
  | .SetHistoricalRoots => .SetHistoricalRoots [fill 7]
  | .SetEth1Data => .SetEth1Data (some 7)
  | .SetEth1DataVotes => .SetEth1DataVotes [some 7]
  | .SetEth1DepositIndex => .SetEth1DepositIndex 7
  | .SetValidators => .SetValidators [some 7]
  | .SetBalances => .SetBalances [7]
  | .SetRandaoMixes => .SetRandaoMixes [fill 7, fill 7]
  | .SetSlashings => .SetSlashings [7, 7]
  | .SetPreviousEpochAttestations => .SetPreviousEpochAttestations [some 7]
  | .SetCurrentEpochAttestations => .SetCurrentEpochAttestations [some 7]
  | .SetJustificationBits => .SetJustificationBits [7]
  | .SetPreviousJustifiedCheckpoint => .SetPreviousJustifiedCheckpoint (some 7)
  | .SetCurrentJustifiedCheckpoint => .SetCurrentJustifiedCheckpoint (some 7)
  | .SetFinalizedCheckpoint => .SetFinalizedCheckpoint (some 7)

/-- Equality of results is decidable when equality of errors and of values is. -/
instance decEqExcept {ε α : Type} [DecidableEq ε] [DecidableEq α] : DecidableEq (Except ε α)
  | .ok a, .ok b =>
    if h : a = b then isTrue (by rw [h]) else isFalse (fun h1 => h (Except.ok.inj h1))
  | .error a, .error b =>
    if h : a = b then isTrue (by rw [h]) else isFalse (fun h1 => h (Except.error.inj h1))
  | .ok _, .error _ => isFalse (fun h => Except.noConfusion h)
  | .error _, .ok _ => isFalse (fun h => Except.noConfusion h)

/-! ## Arithmetic of the sibling index -/

theorem xor_one_even (n : Nat) (h : n % 2 = 0) : n ^^^ 1 = n + 1 := by
  apply Nat.eq_of_testBit_eq
  intro i
  rw [Nat.testBit_xor]
  cases i with
  | zero =>
    have h1 : (n + 1) % 2 = 1 := by omega
    simp [Nat.testBit_zero, h, h1]
  | succ i =>
    simp [Nat.testBit_succ]
    congr 1
    omega

theorem xor_one_odd (n : Nat) (h : n % 2 = 1) : n ^^^ 1 = n - 1 := by
  apply Nat.eq_of_testBit_eq
  intro i
  rw [Nat.testBit_xor]
  cases i with
  | zero =>
    have h1 : (n - 1) % 2 = 0 := by omega
    simp [Nat.testBit_zero, h, h1]
  | succ i =>
    simp [Nat.testBit_succ]
    congr 1
    omega

/-- The parent hash computed by one iteration is the hash of the pair that
contains `cur`, read from the layer with `root` stored at `cur`. -/
theorem step_hash (H : Bytes → Bytes) (layer : List Bytes) (cur : Nat) (root : Bytes)
    (hroot : layer[cur]? = some root) :
    (if cur % 2 == 0 then
        H (root ++ (if cur ^^^ 1 < layer.length then layer.getD (cur ^^^ 1) zeroBytes
                    else zeroBytes))
      else
        H ((if cur ^^^ 1 < layer.length then layer.getD (cur ^^^ 1) zeroBytes
            else zeroBytes) ++ root))
      = pairHash H layer (cur / 2) := by
  have hnb : (if cur ^^^ 1 < layer.length then layer.getD (cur ^^^ 1) zeroBytes else zeroBytes)
      = layer.getD (cur ^^^ 1) zeroBytes := by
    split
    · rfl
    · rename_i h
      simp only [List.getD_eq_getElem?_getD]
      rw [List.getElem?_eq_none (by omega)]
      rfl
  rw [hnb]
  have hr : layer.getD cur zeroBytes = root := by
    simp [List.getD_eq_getElem?_getD, hroot]
  unfold pairHash
  rcases Nat.mod_two_eq_zero_or_one cur with h | h
  · have e1 : 2 * (cur / 2) = cur := by omega
    simp only [h, beq_self_eq_true, if_true, xor_one_even cur h, e1, hr]
  · have e1 : 2 * (cur / 2) + 1 = cur := by omega
    have e2 : 2 * (cur / 2) = cur - 1 := by omega
    have hne : (cur % 2 == 0) = false := by simp [h]
    rw [hne, e1, hr, xor_one_odd cur h, e2]
    simp

/-! ## The loop, layer by layer -/

/-- The indexed loop over `pre ++ layer :: ups`, started at layer `pre.length`
for `ups.length` iterations, is `climb` on `layer` and `ups`. -/
theorem recomputeLoop_eq_climb (H : Bytes → Bytes) (ups : Layers) :
    ∀ (pre : Layers) (layer : List Bytes) (cur : Nat) (root : Bytes),
      recomputeLoop H ups.length pre.length cur root (pre ++ layer :: ups)
        = (climb H cur root layer ups).map (fun out => pre ++ out) := by
  induction ups with
  | nil => intro pre layer cur root; simp [recomputeLoop, climb]
  | cons up rest ih =>
    intro pre layer cur root
    have h0 : (pre ++ layer :: up :: rest).getD pre.length [] = layer := by
      rw [List.getD_eq_getElem?_getD, List.getElem?_append_right (by omega)]
      simp
    have h1 : (pre ++ layer :: up :: rest)[pre.length + 1]? = some up := by
      rw [List.getElem?_append_right (by omega)]
      simp
    have h2 : ∀ x, (pre ++ layer :: up :: rest).set (pre.length + 1) x
        = (pre ++ [layer]) ++ x :: rest := by
      intro x
      rw [List.set_append_right _ _ (by omega)]
      simp
    simp only [List.length_cons, recomputeLoop, climb, h0, h1, h2]
    split
    · have := ih (pre ++ [layer]) (up.set (cur / 2)
        (if (cur % 2 == 0) = true then
          H (root ++ if cur ^^^ 1 < layer.length then layer.getD (cur ^^^ 1) zeroBytes
                     else zeroBytes)
        else H ((if cur ^^^ 1 < layer.length then layer.getD (cur ^^^ 1) zeroBytes
                 else zeroBytes) ++ root))) (cur / 2)
        (if (cur % 2 == 0) = true then
          H (root ++ if cur ^^^ 1 < layer.length then layer.getD (cur ^^^ 1) zeroBytes
                     else zeroBytes)
        else H ((if cur ^^^ 1 < layer.length then layer.getD (cur ^^^ 1) zeroBytes
                 else zeroBytes) ++ root))
      simp only [List.length_append, List.length_singleton] at this
      rw [this]
      simp [Option.map_map, Function.comp_def]
    · rfl

/-- The function `recomputeRoot` on `layer0 :: ups` is `climb` from the leaf. -/
theorem recomputeRoot_eq_climb (H : Bytes → Bytes) (layer0 : List Bytes) (ups : Layers)
    (idx : Nat) (root : Bytes) (hroot : layer0[idx]? = some root) :
    recomputeRoot H (layer0 :: ups) idx = climb H idx root layer0 ups := by
  have := recomputeLoop_eq_climb H ups [] layer0 idx root
  simp only [List.length_nil, List.nil_append] at this
  simp [recomputeRoot, hroot, this]

/-! ## One level of the full rehash -/

theorem length_hashPairs (H : Bytes → Bytes) :
    ∀ l : List Bytes, (hashPairs H l).length = (l.length + 1) / 2
  | [] => by simp [hashPairs]
  | [_] => by simp [hashPairs]
  | _ :: _ :: rest => by
    simp only [hashPairs, List.length_cons, length_hashPairs H rest]
    omega

theorem hashPairs_getElem? (H : Bytes → Bytes) :
    ∀ (l : List Bytes) (p : Nat),
      (hashPairs H l)[p]? = if 2 * p < l.length then some (pairHash H l p) else none
  | [], p => by simp [hashPairs]
  | [a], p => by
    cases p with
    | zero => simp [hashPairs, pairHash]
    | succ p => simp [hashPairs]
  | a :: b :: rest, p => by
    cases p with
    | zero => simp [hashPairs, pairHash]
    | succ p =>
      have ih := hashPairs_getElem? H rest p
      have e1 : 2 * (p + 1) = (2 * p) + 1 + 1 := by omega
      have e2 : 2 * (p + 1) + 1 = (2 * p + 1) + 1 + 1 := by omega
      simp only [hashPairs, List.getElem?_cons_succ, ih, List.length_cons, pairHash, e1, e2,
        List.getD_cons_succ]
      simp

/-- A layer of the right size whose entries are the hashes of the pairs below
is the pairwise hash of the layer below. -/
theorem eq_hashPairs_of_parentsOf (H : Bytes → Bytes) (layer up : List Bytes)
    (hlen : up.length = (layer.length + 1) / 2) (hp : ParentsOf H layer up) :
    up = hashPairs H layer := by
  apply List.ext_getElem?
  intro p
  rw [hashPairs_getElem?]
  by_cases h : p < up.length
  · rw [hp p h, if_pos (by omega)]
    rfl
  · rw [List.getElem?_eq_none (by omega), if_neg (by omega)]

theorem parentsOf_hashPairs (H : Bytes → Bytes) (layer : List Bytes) :
    ParentsOf H layer (hashPairs H layer) := by
  intro p hp
  rw [length_hashPairs] at hp
  rw [hashPairs_getElem?, if_pos (by omega)]
  rfl

/-- Replacing one entry of a layer changes exactly its parent in the layer above. -/
theorem hashPairs_set (H : Bytes → Bytes) (l : List Bytes) (cur : Nat) (v : Bytes)
    (_hcur : cur < l.length) :
    (hashPairs H l).set (cur / 2) (pairHash H (l.set cur v) (cur / 2))
      = hashPairs H (l.set cur v) := by
  apply List.ext_getElem?
  intro q
  rw [hashPairs_getElem?, List.getElem?_set, List.length_set, length_hashPairs]
  by_cases hq : cur / 2 = q
  · subst hq
    simp only [if_true]
    by_cases h2 : cur / 2 < (l.length + 1) / 2
    · rw [if_pos h2, if_pos (by omega)]
    · rw [if_neg h2, if_neg (by omega)]
  · rw [if_neg hq, hashPairs_getElem?]
    have e1 : (l.set cur v).getD (2 * q) zeroBytes = l.getD (2 * q) zeroBytes := by
      simp only [List.getD_eq_getElem?_getD]
      rw [List.getElem?_set_ne (by omega)]
    have e2 : (l.set cur v).getD (2 * q + 1) zeroBytes = l.getD (2 * q + 1) zeroBytes := by
      simp only [List.getD_eq_getElem?_getD]
      rw [List.getElem?_set_ne (by omega)]
    simp only [pairHash, e1, e2]

/-! ## The full rehash -/

theorem rebuild_eq_cons (H : Bytes → Bytes) (n : Nat) (l : List Bytes) :
    rebuild H n l = l :: (rebuild H n l).tail := by
  cases n <;> simp [rebuild]

theorem length_rebuild (H : Bytes → Bytes) :
    ∀ (n : Nat) (l : List Bytes), (rebuild H n l).length = n + 1
  | 0, _ => rfl
  | n + 1, l => by simp [rebuild, length_rebuild H n]

/-- A well-formed layer sequence whose parents are the hashes of their
children is the full rehash of its layer 0. -/
theorem eq_rebuild_of_hashed (H : Bytes → Bytes) :
    ∀ (ups : Layers) (layer : List Bytes),
      WellFormed (layer :: ups) → Hashed H (layer :: ups) →
      layer :: ups = rebuild H ups.length layer
  | [], _, _, _ => rfl
  | up :: rest, layer, hw, hh => by
    have hup : up = hashPairs H layer := eq_hashPairs_of_parentsOf H layer up hw.1 hh.1
    have ih := eq_rebuild_of_hashed H rest up hw.2 hh.2
    simp only [List.length_cons, rebuild]
    rw [← hup, ← ih]

/-- Climbing from a replaced entry through the layers of a full rehash gives
the full rehash of the layer with the entry replaced. -/
theorem climb_rebuild (H : Bytes → Bytes) :
    ∀ (n : Nat) (l : List Bytes) (cur : Nat) (v : Bytes), cur < l.length →
      climb H cur v (l.set cur v) (rebuild H n l).tail = some (rebuild H n (l.set cur v))
  | 0, l, cur, v, _ => by simp [rebuild, climb]
  | n + 1, l, cur, v, hcur => by
    have hroot : (l.set cur v)[cur]? = some v := by
      rw [List.getElem?_set_self hcur]
    have hstep := step_hash H (l.set cur v) cur v hroot
    have ih := climb_rebuild H n (hashPairs H l) (cur / 2)
      (pairHash H (l.set cur v) (cur / 2)) (by rw [length_hashPairs]; omega)
    rw [hashPairs_set H l cur v hcur] at ih
    have htail : (rebuild H (n + 1) l).tail
        = hashPairs H l :: (rebuild H n (hashPairs H l)).tail := by
      simp only [rebuild, List.tail_cons]
      exact rebuild_eq_cons H n _
    rw [htail]
    simp only [climb, hstep]
    rw [if_pos (by rw [length_hashPairs]; omega), hashPairs_set H l cur v hcur, ih]
    simp [rebuild]

theorem hashed_rebuild (H : Bytes → Bytes) :
    ∀ (n : Nat) (l : List Bytes), Hashed H (rebuild H n l)
  | 0, _ => trivial
  | n + 1, l => by
    have ih := hashed_rebuild H n (hashPairs H l)
    rw [rebuild_eq_cons] at ih
    simp only [rebuild]
    rw [rebuild_eq_cons H n]
    exact ⟨parentsOf_hashPairs H l, ih⟩

/-! ## Shape of well-formed layers -/

theorem wellFormed_set_head (layer : List Bytes) (ups : Layers) (i : Nat) (v : Bytes)
    (hw : WellFormed (layer :: ups)) : WellFormed (layer.set i v :: ups) := by
  cases ups with
  | nil => simpa [WellFormed] using hw
  | cons up rest => exact ⟨by simpa using hw.1, hw.2⟩

theorem wellFormed_ne_nil (layers : Layers) (hw : WellFormed layers) :
    ∃ layer0 ups, layers = layer0 :: ups := by
  cases layers with
  | nil => exact hw.elim
  | cons layer0 ups => exact ⟨layer0, ups, rfl⟩

/-! ## Freshness of the recomputed branch -/

/-- Climbing from entry `cur` of a well-formed sequence succeeds, keeps the
starting layer, and leaves every ancestor equal to the hash of its children. -/
theorem climb_fresh (H : Bytes → Bytes) :
    ∀ (ups : Layers) (layer : List Bytes) (cur : Nat) (root : Bytes),
      layer[cur]? = some root → WellFormed (layer :: ups) →
      ∃ out, climb H cur root layer ups = some out ∧ out[0]? = some layer ∧
        ∀ k, k < ups.length →
          ∃ lay up, out[k]? = some lay ∧ out[k + 1]? = some up ∧
            2 * (cur / 2 ^ (k + 1)) < lay.length ∧
            up[cur / 2 ^ (k + 1)]? = some (pairHash H lay (cur / 2 ^ (k + 1)))
  | [], layer, cur, root, _, _ => ⟨[layer], rfl, rfl, fun k hk => absurd hk (by simp)⟩
  | up :: rest, layer, cur, root, hroot, hw => by
    have hcur : cur < layer.length := by
      rcases List.getElem?_eq_some_iff.mp hroot with ⟨h, _⟩
      exact h
    have hup : cur / 2 < up.length := by rw [hw.1]; omega
    have hstep := step_hash H layer cur root hroot
    obtain ⟨out1, hout1, hhead, hfresh⟩ := climb_fresh H rest
      (up.set (cur / 2) (pairHash H layer (cur / 2))) (cur / 2) (pairHash H layer (cur / 2))
      (List.getElem?_set_self hup) (wellFormed_set_head up rest _ _ hw.2)
    refine ⟨layer :: out1, ?_, by simp, ?_⟩
    · simp only [climb, hstep, if_pos hup, hout1, Option.map_some']
    · intro k hk
      cases k with
      | zero =>
        refine ⟨layer, up.set (cur / 2) (pairHash H layer (cur / 2)), by simp, ?_, ?_, ?_⟩
        · simpa using hhead
        · simp only [zero_add, pow_one]; omega
        · simp only [zero_add, pow_one]
          exact List.getElem?_set_self hup
      | succ k =>
        obtain ⟨lay, up1, h1, h2, h3, h4⟩ := hfresh k (by simpa using hk)
        have e : cur / 2 / 2 ^ (k + 1) = cur / 2 ^ (k + 1 + 1) := by
          rw [Nat.div_div_eq_div_mul, pow_succ _ (k + 1), Nat.mul_comm]
        rw [e] at h3 h4
        exact ⟨lay, up1, by simpa using h1, by simpa using h2, h3, h4⟩

/-- The head layer of the result of `climb` is the layer it started from. -/
theorem climb_head (H : Bytes → Bytes) (ups : Layers) (layer : List Bytes) (cur : Nat)
    (root : Bytes) (out : Layers) (h : climb H cur root layer ups = some out) :
    out[0]? = some layer := by
  cases ups with
  | nil =>
    simp only [climb, Option.some.injEq] at h
    subst h
    simp
  | cons up rest =>
    simp only [climb] at h
    split at h
    · rcases Option.map_eq_some'.mp h with ⟨out1, _, rfl⟩
      simp
    · exact absurd h (by simp)

/-! ## Incremental recomputation and the full rehash -/

/-- C1: on a well-formed layer sequence in which every parent is the hash of
its two children (a missing right sibling read as 32 zero bytes), writing `h`
into `layer0[idx]` and running `recomputeRoot(idx)` gives exactly the layers
of a full bottom-up rehash of the new layer 0, hence the same root; with four
leaves and `idx = 0` the root is `Hash(Hash(h ++ leaf1) ++ Hash(leaf2 ++ leaf3))`. -/
theorem recomputeRoot_eq_full_rehash (H : Bytes → Bytes) (layers : Layers) (idx : Nat)
    (h : Bytes) (hw : WellFormed layers) (hh : Hashed H layers)
    (hidx : idx < (layers.getD 0 []).length) :
    (writeLeaf layers idx h).bind (fun written => recomputeRoot H written idx)
        = some (rebuild H (layers.length - 1) ((layers.getD 0 []).set idx h))
      ∧ ((writeLeaf layers idx h).bind (fun written => recomputeRoot H written idx)).bind rootOf
        = rootOf (rebuild H (layers.length - 1) ((layers.getD 0 []).set idx h))
      ∧ (∀ l0 l1 l2 l3, layers.length = 3 → layers.getD 0 [] = [l0, l1, l2, l3] → idx = 0 →
          ((writeLeaf layers idx h).bind (fun written => recomputeRoot H written idx)).bind rootOf
            = some (H (H (h ++ l1) ++ H (l2 ++ l3)))) := by
  obtain ⟨layer0, ups, rfl⟩ := wellFormed_ne_nil layers hw
  have hcur : idx < layer0.length := by simpa using hidx
  have hreb := eq_rebuild_of_hashed H ups layer0 hw hh
  have hups : ups = (rebuild H ups.length layer0).tail := by
    rw [← hreb]
    rfl
  have hmain : (writeLeaf (layer0 :: ups) idx h).bind (fun written => recomputeRoot H written idx)
      = some (rebuild H ups.length (layer0.set idx h)) := by
    have hwrite : writeLeaf (layer0 :: ups) idx h = some (layer0.set idx h :: ups) := by
      simp [writeLeaf, hcur]
    rw [hwrite, Option.some_bind,
      recomputeRoot_eq_climb H (layer0.set idx h) ups idx h (List.getElem?_set_self hcur)]
    conv_lhs => rw [hups]
    exact climb_rebuild H ups.length layer0 idx h hcur
  have hlen : (layer0 :: ups).length - 1 = ups.length := by simp
  have hget : (layer0 :: ups).getD 0 [] = layer0 := by simp
  rw [hlen, hget, hmain]
  refine ⟨rfl, rfl, ?_⟩
  intro l0 l1 l2 l3 h3 hl hz
  have hn : ups.length = 2 := by simpa using h3
  subst hl hz
  rw [hn]
  simp [rebuild, hashPairs, rootOf]

/-- C1 at a concrete input: four leaves hashed with the checksum, leaf 0
replaced. -/
theorem recomputeRoot_eq_full_rehash_witness :
    let layers := rebuild toyHash 2 [fill 1, fill 2, fill 3, fill 4]
    (writeLeaf layers 0 (fill 9)).bind (fun written => recomputeRoot toyHash written 0)
        = some (rebuild toyHash (layers.length - 1) ((layers.getD 0 []).set 0 (fill 9)))
      ∧ ((writeLeaf layers 0 (fill 9)).bind (fun written => recomputeRoot toyHash written 0)).bind
          rootOf
        = rootOf (rebuild toyHash (layers.length - 1) ((layers.getD 0 []).set 0 (fill 9)))
      ∧ (∀ l0 l1 l2 l3, layers.length = 3 → layers.getD 0 [] = [l0, l1, l2, l3] → 0 = 0 →
          ((writeLeaf layers 0 (fill 9)).bind
              (fun written => recomputeRoot toyHash written 0)).bind rootOf
            = some (toyHash (toyHash (fill 9 ++ l1) ++ toyHash (l2 ++ l3)))) :=
  recomputeRoot_eq_full_rehash toyHash (rebuild toyHash 2 [fill 1, fill 2, fill 3, fill 4]) 0
    (fill 9) (by simp [rebuild, hashPairs, WellFormed]) (hashed_rebuild toyHash 2 _)
    (by simp [rebuild])

/-- C2: on a well-formed layer sequence with arbitrary contents,
`recomputeRoot(idx)` returns, and afterwards every ancestor of leaf `idx`,
the entry `idx / 2^(k+1)` of layer `k+1`, is the hash of the entries stored at
`2p` and `2p+1` of layer `k`, the even-indexed one on the left and a right
entry outside the layer read as 32 zero bytes. -/
theorem recomputeRoot_ancestors_fresh (H : Bytes → Bytes) (layers : Layers) (idx : Nat)
    (hw : WellFormed layers) (hidx : idx < (layers.getD 0 []).length) :
    ∃ out, recomputeRoot H layers idx = some out ∧
      ∀ k, k + 1 < layers.length →
        ∃ layer up, out[k]? = some layer ∧ out[k + 1]? = some up ∧
          2 * (idx / 2 ^ (k + 1)) < layer.length ∧
          up[idx / 2 ^ (k + 1)]? =
            some (H (layer.getD (2 * (idx / 2 ^ (k + 1))) zeroBytes
              ++ layer.getD (2 * (idx / 2 ^ (k + 1)) + 1) zeroBytes)) := by
  obtain ⟨layer0, ups, rfl⟩ := wellFormed_ne_nil layers hw
  have hcur : idx < layer0.length := by simpa using hidx
  have hroot : layer0[idx]? = some layer0[idx] := List.getElem?_eq_getElem hcur
  obtain ⟨out, hout, _, hfresh⟩ := climb_fresh H ups layer0 idx layer0[idx] hroot hw
  refine ⟨out, ?_, ?_⟩
  · rw [recomputeRoot_eq_climb H layer0 ups idx layer0[idx] hroot, hout]
  · intro k hk
    exact hfresh k (by simpa using hk)

/-- C2 at a concrete input: layers of sizes 3, 2, 1 with unrelated contents. -/
theorem recomputeRoot_ancestors_fresh_witness :
    ∃ out, recomputeRoot toyHash [[fill 1, fill 2, fill 3], [fill 4, fill 5], [fill 6]] 2
        = some out ∧
      ∀ k, k + 1 < [[fill 1, fill 2, fill 3], [fill 4, fill 5], [fill 6]].length →
        ∃ layer up, out[k]? = some layer ∧ out[k + 1]? = some up ∧
          2 * (2 / 2 ^ (k + 1)) < layer.length ∧
          up[2 / 2 ^ (k + 1)]? =
            some (toyHash (layer.getD (2 * (2 / 2 ^ (k + 1))) zeroBytes
              ++ layer.getD (2 * (2 / 2 ^ (k + 1)) + 1) zeroBytes)) :=
  recomputeRoot_ancestors_fresh toyHash [[fill 1, fill 2, fill 3], [fill 4, fill 5], [fill 6]] 2
    (by simp [WellFormed]) (by simp)

/-! ## The setters -/

theorem runCall_eq (env : Env P) (b : BeaconState P) (call : Call P) :
    runCall env b call =
      match computedLeaf env b call, leafIndexOf call with
      | some (.error e), _ => .returned (some e) b
      | some (.ok r), some i => commitLeaf env (assignField b call) i r
      | _, _ => .returned none (assignField b call) := by
  cases call <;>
    simp only [runCall, computedLeaf, leafIndexOf, assignField, SetGenesisTime, SetSlot, SetFork,
      SetLatestBlockHeader, SetBlockRoots, SetStateRoots, SetHistoricalRoots, SetEth1Data,
      SetEth1DataVotes, SetEth1DepositIndex, SetValidators, SetBalances, SetRandaoMixes,
      SetSlashings, SetPreviousEpochAttestations, SetCurrentEpochAttestations,
      SetJustificationBits, SetPreviousJustifiedCheckpoint, SetCurrentJustifiedCheckpoint,
      SetFinalizedCheckpoint] <;>
    (try (split <;> simp_all))

theorem recomputeRoot_head (H : Bytes → Bytes) (layers : Layers) (idx : Nat) (out : Layers)
    (h : recomputeRoot H layers idx = some out) : out[0]? = layers[0]? := by
  cases layers with
  | nil => simp [recomputeRoot] at h
  | cons layer0 ups =>
    cases hroot : layer0[idx]? with
    | none => simp [recomputeRoot, hroot] at h
    | some root =>
      rw [recomputeRoot_eq_climb H layer0 ups idx root hroot] at h
      rw [climb_head H ups layer0 idx root out h]
      simp

theorem recomputeRoot_returns (H : Bytes → Bytes) (layers : Layers) (idx : Nat)
    (hw : WellFormed layers) (hidx : idx < (layers.getD 0 []).length) :
    ∃ out, recomputeRoot H layers idx = some out := by
  obtain ⟨layer0, ups, rfl⟩ := wellFormed_ne_nil layers hw
  have hcur : idx < layer0.length := by simpa using hidx
  have hroot : layer0[idx]? = some layer0[idx] := List.getElem?_eq_getElem hcur
  obtain ⟨out, hout, _, _⟩ := climb_fresh H ups layer0 idx layer0[idx] hroot hw
  exact ⟨out, by rw [recomputeRoot_eq_climb H layer0 ups idx layer0[idx] hroot, hout]⟩

theorem commitLeaf_returned (env : Env P) (b : BeaconState P) (idx : Nat) (root : Bytes)
    (err : Option P.Err) (b1 : BeaconState P)
    (h : commitLeaf env b idx root = .returned err b1) :
    err = none ∧ b.lock = false ∧ ∃ written layers,
      writeLeaf b.merkleLayers idx root = some written ∧
      recomputeRoot env.Hash written idx = some layers ∧
      b1 = { b with lock := false, merkleLayers := layers } := by
  unfold commitLeaf at h
  split at h
  · exact absurd h (by simp)
  · rename_i hl
    split at h
    · exact absurd h (by simp)
    · rename_i written hwr
      split at h
      · exact absurd h (by simp)
      · rename_i layers hrec
        simp only [Outcome.returned.injEq] at h
        exact ⟨h.1.symm, by simpa using hl, written, layers, hwr, hrec, h.2.symm⟩

theorem writeLeaf_wellFormed (layers : Layers) (idx : Nat) (h : Bytes) (hw : WellFormed layers)
    (hidx : idx < (layers.getD 0 []).length) :
    ∃ written, writeLeaf layers idx h = some written ∧ WellFormed written ∧
      idx < (written.getD 0 []).length ∧
      written[0]? = some ((layers.getD 0 []).set idx h) := by
  obtain ⟨layer0, ups, rfl⟩ := wellFormed_ne_nil layers hw
  have hcur : idx < layer0.length := by simpa using hidx
  refine ⟨layer0.set idx h :: ups, by simp [writeLeaf, hcur],
    wellFormed_set_head layer0 ups idx h hw, by simpa using hcur, by simp⟩

/-- On a well-formed state whose lock is free the end of a setter returns
`nil`, with the leaf written and the layers recomputed. -/
theorem commitLeaf_wellFormed (env : Env P) (b : BeaconState P) (idx : Nat) (root : Bytes)
    (hw : WellFormed b.merkleLayers) (hidx : idx < (b.merkleLayers.getD 0 []).length)
    (hl : b.lock = false) :
    ∃ written layers, writeLeaf b.merkleLayers idx root = some written ∧
      recomputeRoot env.Hash written idx = some layers ∧
      commitLeaf env b idx root
        = .returned none { b with lock := false, merkleLayers := layers } := by
  obtain ⟨written, hwr, hww, hwi, _⟩ := writeLeaf_wellFormed b.merkleLayers idx root hw hidx
  obtain ⟨layers, hrec⟩ := recomputeRoot_returns env.Hash written idx hww hwi
  exact ⟨written, layers, hwr, hrec, by simp [commitLeaf, hl, hwr, hrec]⟩

/-- The end of a setter changes no leaf but the one at `idx`, which holds
`root` afterwards. -/
theorem commitLeaf_leafAt (env : Env P) (b : BeaconState P) (idx : Nat) (root : Bytes)
    (err : Option P.Err) (b1 : BeaconState P)
    (h : commitLeaf env b idx root = .returned err b1) :
    leafAt b1 idx = some root ∧ ∀ j, j ≠ idx → leafAt b1 j = leafAt b j := by
  obtain ⟨_, _, written, layers, hwr, hrec, rfl⟩ := commitLeaf_returned env b idx root err b1 h
  have hhead := recomputeRoot_head env.Hash written idx layers hrec
  unfold writeLeaf at hwr
  cases h0 : b.merkleLayers[0]? with
  | none => simp [h0] at hwr
  | some layer0 =>
    simp only [h0] at hwr
    split at hwr
    · rename_i hlt
      simp only [Option.some.injEq] at hwr
      subst hwr
      have hne : b.merkleLayers ≠ [] := by
        intro hnil
        simp [hnil] at h0
      have hw0 : (b.merkleLayers.set 0 (layer0.set idx root))[0]? = some (layer0.set idx root) := by
        cases hb : b.merkleLayers with
        | nil => exact absurd hb hne
        | cons x xs => simp
      rw [hw0] at hhead
      constructor
      · simp only [leafAt, hhead]
        exact List.getElem?_set_self hlt
      · intro j hj
        simp only [leafAt, hhead, h0]
        exact List.getElem?_set_ne (Ne.symm hj)
    · exact absurd hwr (by simp)

theorem leafAt_assignField (b : BeaconState P) (call : Call P) (j : Nat) :
    leafAt (assignField b call) j = leafAt b j := by
  cases call <;> rfl

theorem wellFormedState_assignField (b : BeaconState P) (call : Call P)
    (hw : WellFormedState b) : WellFormedState (assignField b call) := by
  cases call <;> exact hw

theorem lock_assignField (b : BeaconState P) (call : Call P) :
    (assignField b call).lock = b.lock := by
  cases call <;> rfl

theorem leafIndexOf_lt (call : Call P) (i : Nat) (h : leafIndexOf call = some i) : i < 20 := by
  cases call <;> simp [leafIndexOf] at h <;> subst h <;> decide

/-- On a well-formed state whose lock is free, a setter whose hasher call
succeeds returns `nil`, stores the new value and holds at its leaf index the
leaf it computed. -/
theorem runCall_writes_computedLeaf (env : Env P) (b : BeaconState P) (call : Call P)
    (i : fieldIndex) (r : Bytes) (hw : WellFormedState b) (hl : b.lock = false)
    (hi : leafIndexOf call = some i) (hc : computedLeaf env b call = some (.ok r)) :
    ∃ b1, runCall env b call = .returned none b1 ∧ b1.state = (assignField b call).state
      ∧ leafAt b1 i = some r ∧ b1.lock = false := by
  have hw1 := wellFormedState_assignField b call hw
  obtain ⟨_, layers, _, _, hcommit⟩ := commitLeaf_wellFormed env (assignField b call) i r hw1.1
    (lt_of_lt_of_le (leafIndexOf_lt call i hi) hw1.2) (by rw [lock_assignField]; exact hl)
  refine ⟨{ assignField b call with lock := false, merkleLayers := layers }, ?_, rfl,
    (commitLeaf_leafAt env _ i r none _ hcommit).1, rfl⟩
  rw [runCall_eq, hc, hi]
  exact hcommit

theorem wellFormedState_toyState : WellFormedState toyState := by
  constructor
  · simp [toyState, layersFromScratch, fieldRoots, toyEnv, toyFields, toyMessageRoot,
      toyArraysRoot, bind, Except.bind, pure, Except.pure, rebuild, hashPairs, WellFormed, fill]
  · simp [toyState, layersFromScratch, fieldRoots, toyEnv, toyFields, toyMessageRoot,
      toyArraysRoot, bind, Except.bind, pure, Except.pure, rebuild, fill]

/-! ## Errors of the setters -/

/-- C7: a setter returns an error exactly when its hasher call returns that
error, and then the state it leaves, every stored field and every entry of
every layer, is the state before the call; when `ArraysRoot` rejects the value
for `EpochsPerHistoricalVector`, `SetRandaoMixes` fails and changes nothing. -/
theorem setter_error_atomic (env : Env P) (b : BeaconState P) :
    (∀ call e b1, runCall env b call = .returned (some e) b1 →
        computedLeaf env b call = some (.error e) ∧ b1 = b)
      ∧ (∀ call e, computedLeaf env b call = some (.error e) →
        runCall env b call = .returned (some e) b)
      ∧ (∀ val e, env.ArraysRoot val env.EpochsPerHistoricalVector "RandaoMixes" = .error e →
        SetRandaoMixes env b val = .returned (some e) b) := by
  refine ⟨?_, ?_, ?_⟩
  · intro call e b1 h
    rw [runCall_eq] at h
    split at h
    · rename_i hc
      simp only [Outcome.returned.injEq, Option.some.injEq] at h
      rw [hc, h.1, h.2]
      exact ⟨rfl, rfl⟩
    · have := (commitLeaf_returned env _ _ _ _ _ h).1
      exact absurd this (by simp)
    · simp at h
  · intro call e h
    rw [runCall_eq, h]
  · intro val e h
    simp [SetRandaoMixes, h]

/-- C7 at a concrete input: a vector of three mixes where two are configured. -/
theorem setter_error_atomic_witness :
    SetRandaoMixes toyEnv toyState [fill 1, fill 2, fill 3]
      = .returned (some "RandaoMixes length") toyState :=
  (setter_error_atomic toyEnv toyState).2.2 [fill 1, fill 2, fill 3] "RandaoMixes length" rfl

/-! ## Isolation of the leaves -/

/-- C9: on a well-formed state whose lock is free every setter returns, and
after a setter returns every leaf other than the one at the index it writes is
unchanged (every leaf, for a setter that writes none); `recomputeRoot` itself
leaves layer 0 as it was. -/
theorem setter_isolation (env : Env P) (b : BeaconState P) (call : Call P)
    (hw : WellFormedState b) (hl : b.lock = false) :
    (∃ err b1, runCall env b call = .returned err b1)
      ∧ (∀ err b1, runCall env b call = .returned err b1 →
          ∀ j, leafIndexOf call ≠ some j → leafAt b1 j = leafAt b j)
      ∧ (∀ idx out, recomputeRoot env.Hash b.merkleLayers idx = some out →
          out[0]? = b.merkleLayers[0]?) := by
  refine ⟨?_, ?_, fun idx out h => recomputeRoot_head env.Hash _ idx out h⟩
  · rw [runCall_eq]
    split
    · exact ⟨_, _, rfl⟩
    · rename_i r i _ hi
      have hw1 := wellFormedState_assignField b call hw
      obtain ⟨_, layers, _, _, hc⟩ := commitLeaf_wellFormed env (assignField b call) i r hw1.1
        (lt_of_lt_of_le (leafIndexOf_lt call i hi) hw1.2) (by rw [lock_assignField]; exact hl)
      exact ⟨_, _, hc⟩
    · exact ⟨_, _, rfl⟩
  · intro err b1 h j hj
    rw [runCall_eq] at h
    split at h
    · simp only [Outcome.returned.injEq] at h
      rw [← h.2]
    · rename_i r i _ hi
      rw [(commitLeaf_leafAt env _ i r err b1 h).2 j (by
        intro hji
        exact hj (by rw [hi, hji])), leafAt_assignField]
    · simp only [Outcome.returned.injEq] at h
      rw [← h.2, leafAt_assignField]

/-- C9 at a concrete input: `SetBalances` on the small state. -/
theorem setter_isolation_witness :
    (∃ err b1, runCall toyEnv toyState (.SetBalances [5]) = .returned err b1)
      ∧ (∀ err b1, runCall toyEnv toyState (.SetBalances [5]) = .returned err b1 →
          ∀ j, leafIndexOf (.SetBalances [5] : Call toyProto) ≠ some j →
            leafAt b1 j = leafAt toyState j)
      ∧ (∀ idx out, recomputeRoot toyEnv.Hash toyState.merkleLayers idx = some out →
          out[0]? = toyState.merkleLayers[0]?) :=
  setter_isolation toyEnv toyState (.SetBalances [5]) wellFormedState_toyState rfl

/-! ## The setters on concrete data -/

set_option maxRecDepth 1000000

/-- C3: the small state has the root of a tree built from scratch over its
fields; after the single successful call `SetBalances([5])` the stored
balances are `[5]` and the root differs from the root of a tree built from
scratch over the stored fields, because the leaf written is the hash of the
balances stored before the call. -/
theorem setBalances_root_not_from_scratch :
    rootOf toyState.merkleLayers = rootFromScratch toyEnv toyState.state
      ∧ ∃ b1, runCalls toyEnv toyState [.SetBalances [5]] = some b1
        ∧ b1.state.Balances = [5]
        ∧ rootOf b1.merkleLayers = rootOf toyState.merkleLayers
        ∧ rootOf b1.merkleLayers ≠ rootFromScratch toyEnv b1.state := by
  refine ⟨by rfl, _, rfl, rfl, by rfl, ?_⟩
  decide

/-- C4: `SetHistoricalRoots` returns `nil` and stores the new value, but the
leaf it writes is the hasher of the value stored before the call, not of the
value stored now; `SetValidators` stores the new value and leaves the leaf of
the validators as it was. -/
theorem setHistoricalRoots_leaf_not_fresh :
    (∃ b1, SetHistoricalRoots toyEnv toyState [fill 7] = .returned none b1
        ∧ b1.state.HistoricalRoots = [fill 7]
        ∧ leafAt b1 historicalRoots
            = (toyEnv.HistoricalRootsRoot toyState.state.HistoricalRoots).toOption
        ∧ leafAt b1 historicalRoots
            ≠ (hasherOfNew toyEnv (.SetHistoricalRoots [fill 7])).toOption)
      ∧ (∃ b2, SetValidators toyEnv toyState [some 4] = .returned none b2
        ∧ b2.state.Validators = [some 4]
        ∧ leafAt b2 validators = leafAt toyState validators
        ∧ leafAt b2 validators ≠ (hasherOfNew toyEnv (.SetValidators [some 4])).toOption) := by
  refine ⟨⟨_, rfl, rfl, by rfl, ?_⟩, ⟨_, rfl, rfl, by rfl, ?_⟩⟩
  · decide
  · decide

/-- C6: the constant `genesisTime` is 1 and `slot` is 0, so `SetGenesisTime`
writes `layer0[1]` and leaves `layer0[0]` as it was, `SetSlot` writes
`layer0[0]`, and `SetValidators` has no leaf index at all. -/
theorem setGenesisTime_writes_leaf_one :
    genesisTime = 1 ∧ slot = 0
      ∧ (∃ b1, SetGenesisTime toyEnv toyState 7 = .returned none b1
        ∧ leafAt b1 1 = some (toyEnv.Uint64Root 7)
        ∧ leafAt b1 0 = leafAt toyState 0
        ∧ leafAt b1 0 ≠ some (toyEnv.Uint64Root 7))
      ∧ (∃ b2, SetSlot toyEnv toyState 7 = .returned none b2
        ∧ leafAt b2 0 = some (toyEnv.Uint64Root 7)
        ∧ leafAt b2 1 = leafAt toyState 1)
      ∧ leafIndexOf (.SetValidators [] : Call toyProto) = none := by
  refine ⟨rfl, rfl, ⟨_, rfl, by rfl, by rfl, ?_⟩, ⟨_, rfl, by rfl, by rfl⟩, rfl⟩
  decide

/-- C8: the hasher of the eth1 data rejects a nil pointer, yet
`SetEth1Data(nil)` returns `nil` and stores the nil pointer: the setter hashes
the value stored before the call. -/
theorem setEth1Data_stores_rejected_value :
    hasherOfNew toyEnv (.SetEth1Data none) = .error "nil eth1 data"
      ∧ toyState.state.Eth1Data = some 3
      ∧ ∃ b1, SetEth1Data toyEnv toyState none = .returned none b1
        ∧ b1.state.Eth1Data = none
        ∧ leafAt b1 eth1Data = (toyEnv.Eth1Root (some 3)).toOption := by
  refine ⟨rfl, rfl, _, rfl, rfl, by rfl⟩

/-- C10: calling `SetPreviousJustifiedCheckpoint` with the same value twice
gives a root different from calling it once: the first call writes the hash
of the checkpoint stored before it, the second the hash of the new one. -/
theorem setPreviousJustifiedCheckpoint_twice_differs :
    ∃ b1 b2,
      runCalls toyEnv toyState [.SetPreviousJustifiedCheckpoint (some 9)] = some b1
        ∧ runCalls toyEnv toyState
            [.SetPreviousJustifiedCheckpoint (some 9), .SetPreviousJustifiedCheckpoint (some 9)]
            = some b2
        ∧ b1.state.PreviousJustifiedCheckpoint = b2.state.PreviousJustifiedCheckpoint
        ∧ rootOf b1.merkleLayers ≠ rootOf b2.merkleLayers := by
  refine ⟨_, _, rfl, rfl, rfl, ?_⟩
  decide

/-! ## The layers and the SSZ merkleization -/

theorem ceilLog2From_eq (n d : Nat) (hle : n ≤ 2 ^ d) (hleast : ∀ e, e < d → ¬ n ≤ 2 ^ e) :
    ∀ (fuel d0 : Nat), d0 ≤ d → d - d0 ≤ fuel → ceilLog2From n fuel d0 = d := by
  intro fuel
  induction fuel with
  | zero =>
    intro d0 h1 h2
    simp only [ceilLog2From]
    omega
  | succ fuel ih =>
    intro d0 h1 h2
    simp only [ceilLog2From]
    by_cases h : n ≤ 2 ^ d0
    · rw [if_pos h]
      by_contra hne
      exact hleast d0 (by omega) h
    · rw [if_neg h]
      have hlt : d0 < d := by
        by_contra hge
        have : d0 = d := by omega
        subst this
        exact h hle
      exact ih (d0 + 1) (by omega) (by omega)

theorem ceilLog2_eq (n d : Nat) (hle : n ≤ 2 ^ d) (hleast : ∀ e, e < d → ¬ n ≤ 2 ^ e) :
    ceilLog2 n = d := by
  apply ceilLog2From_eq n d hle hleast n 0 (Nat.zero_le _)
  cases d with
  | zero => omega
  | succ d =>
    have h1 : ¬ n ≤ 2 ^ d := hleast d (by omega)
    have h2 : d < 2 ^ d := Nat.lt_two_pow d
    omega

theorem ceilLog2_two_pow (d : Nat) : ceilLog2 (2 ^ d) = d := by
  apply ceilLog2_eq _ _ (le_refl _)
  intro e he hle
  have := Nat.pow_lt_pow_right (by decide : 1 < 2) he
  omega

theorem hashPairs_append (H : Bytes → Bytes) :
    ∀ (a b : List Bytes), a.length % 2 = 0 →
      hashPairs H (a ++ b) = hashPairs H a ++ hashPairs H b
  | [], b, _ => by simp [hashPairs]
  | [_], _, h => by simp at h
  | x :: y :: rest, b, h => by
    have ih := hashPairs_append H rest b (by simp at h; omega)
    simp [hashPairs, ih]

theorem iterate_hashPairs_append (H : Bytes → Bytes) :
    ∀ (k d : Nat) (a b : List Bytes), a.length = 2 ^ d → k ≤ d →
      (hashPairs H)^[k] (a ++ b) = (hashPairs H)^[k] a ++ (hashPairs H)^[k] b := by
  intro k
  induction k with
  | zero => intro d a b _ _; rfl
  | succ k ih =>
    intro d a b ha hk
    obtain ⟨d1, rfl⟩ : ∃ d1, d = d1 + 1 := ⟨d - 1, by omega⟩
    have heven : a.length % 2 = 0 := by rw [ha, pow_succ]; omega
    simp only [Function.iterate_succ_apply]
    rw [hashPairs_append H a b heven]
    apply ih d1 _ _ _ (by omega)
    rw [length_hashPairs, ha, pow_succ]
    omega

/-- On `2 ^ d` chunks, `d` levels of pairwise hashing leave the root of the
perfect tree. -/
theorem iterate_hashPairs_perfect (H : Bytes → Bytes) :
    ∀ (d : Nat) (l : List Bytes), l.length = 2 ^ d →
      (hashPairs H)^[d] l = [perfectRoot H d l] := by
  intro d
  induction d with
  | zero =>
    intro l hl
    match l, hl with
    | [x], _ => rfl
  | succ d ih =>
    intro l hl
    have ha : (l.take (2 ^ d)).length = 2 ^ d := by
      rw [List.length_take, hl, pow_succ]; omega
    have hb : (l.drop (2 ^ d)).length = 2 ^ d := by
      rw [List.length_drop, hl, pow_succ]; omega
    have hsplit : l = l.take (2 ^ d) ++ l.drop (2 ^ d) := (List.take_append_drop _ _).symm
    conv_lhs => rw [hsplit]
    rw [Function.iterate_succ_apply',
      iterate_hashPairs_append H d d _ _ ha (le_refl _), ih _ ha, ih _ hb]
    simp [hashPairs, perfectRoot]

theorem getLast?_rebuild (H : Bytes → Bytes) :
    ∀ (n : Nat) (l : List Bytes), (rebuild H n l).getLast? = some ((hashPairs H)^[n] l)
  | 0, _ => rfl
  | n + 1, l => by
    have ih := getLast?_rebuild H n (hashPairs H l)
    rw [rebuild_eq_cons] at ih
    simp only [rebuild, Function.iterate_succ_apply]
    rw [rebuild_eq_cons H n, List.getLast?_cons_cons]
    exact ih

theorem rootOf_rebuild (H : Bytes → Bytes) (n : Nat) (l : List Bytes) :
    rootOf (rebuild H n l) = ((hashPairs H)^[n] l)[0]? := by
  simp [rootOf, getLast?_rebuild]

theorem hashPairs_append_zero (H : Bytes → Bytes) :
    ∀ (l : List Bytes), l.length % 2 = 1 → hashPairs H (l ++ [zeroBytes]) = hashPairs H l
  | [], h => by simp at h
  | [_], _ => by simp [hashPairs]
  | x :: y :: rest, h => by
    have ih := hashPairs_append_zero H rest (by simp at h; omega)
    simp [hashPairs, ih]

theorem ceilLog2_two_pow_pred (d : Nat) (hd : 2 ≤ d) : ceilLog2 (2 ^ d - 1) = d := by
  apply ceilLog2_eq _ _ (Nat.sub_le _ _)
  intro e he hle
  obtain ⟨d1, rfl⟩ : ∃ d1, d = d1 + 1 := ⟨d - 1, by omega⟩
  have h1 : 2 ^ e ≤ 2 ^ d1 := Nat.pow_le_pow_right (by decide) (by omega)
  have h2 : 2 ≤ 2 ^ d1 := by
    calc 2 = 2 ^ 1 := rfl
      _ ≤ 2 ^ d1 := Nat.pow_le_pow_right (by decide) (by omega)
  rw [pow_succ] at hle
  omega

/-- With five leaves the layers hash leaf 4 with zero bytes twice, where the
perfect tree over eight chunks hashes it once with zero bytes and then with
the hash of two zero chunks. -/
theorem roots_of_five_leaves (H : Bytes → Bytes) (a b c d e : Bytes) :
    rootOf (rebuild H 3 [a, b, c, d, e])
        = some (H (H (H (a ++ b) ++ H (c ++ d)) ++ H (H (e ++ zeroBytes) ++ zeroBytes)))
      ∧ sszMerkleize H [a, b, c, d, e]
        = H (H (H (a ++ b) ++ H (c ++ d))
            ++ H (H (e ++ zeroBytes) ++ H (zeroBytes ++ zeroBytes))) := by
  constructor
  · simp [rebuild, hashPairs, rootOf]
  · rfl

/-- C5, as stated, fails for twenty leaves: the layers of 20, 10, 5, 3, 2 and
1 entries are well formed and every parent is the hash of its children, yet
their root is not the SSZ merkleization of the twenty leaves. -/
theorem layered_root_ne_ssz_twenty :
    WellFormed (rebuild toyHash 5 ((List.range 20).map fill))
      ∧ Hashed toyHash (rebuild toyHash 5 ((List.range 20).map fill))
      ∧ ((rebuild toyHash 5 ((List.range 20).map fill)).getD 0 []).length = 20
      ∧ (rebuild toyHash 5 ((List.range 20).map fill)).length = ceilLog2 20 + 1
      ∧ rootOf (rebuild toyHash 5 ((List.range 20).map fill))
        ≠ some (sszMerkleize toyHash
            ((rebuild toyHash 5 ((List.range 20).map fill)).getD 0 [])) := by
  refine ⟨by decide, hashed_rebuild toyHash 5 _, by decide, by decide, by decide⟩

theorem wellFormed_pos :
    ∀ (ups : Layers) (layer : List Bytes), WellFormed (layer :: ups) → 0 < layer.length
  | [], layer, hw => by
    have : layer.length = 1 := hw
    omega
  | up :: rest, layer, hw => by
    have ih := wellFormed_pos rest up hw.2
    have := hw.1
    omega

/-- C5, amended: when the number of leaves is a power of two, or one less than
a power of two, the root of a well-formed layer sequence whose parents are the
hashes of their children, with as many layers as the halving of the leaves
needs, is the SSZ merkleization of the leaves. -/
theorem layered_root_eq_ssz (H : Bytes → Bytes) (layers : Layers) (d : Nat)
    (hw : WellFormed layers) (hh : Hashed H layers)
    (hmin : layers.length = ceilLog2 (layers.getD 0 []).length + 1)
    (hN : (layers.getD 0 []).length = 2 ^ d ∨ (layers.getD 0 []).length + 1 = 2 ^ d) :
    rootOf layers = some (sszMerkleize H (layers.getD 0 [])) := by
  obtain ⟨layer0, ups, rfl⟩ := wellFormed_ne_nil layers hw
  have hreb := eq_rebuild_of_hashed H ups layer0 hw hh
  have hpos := wellFormed_pos ups layer0 hw
  simp only [List.getD_cons_zero, List.length_cons, Nat.add_right_cancel_iff] at hmin hN ⊢
  rw [hreb, rootOf_rebuild, hmin]
  have hpow : ∀ k, layer0.length = 2 ^ k →
      ((hashPairs H)^[ceilLog2 layer0.length] layer0)[0]? = some (sszMerkleize H layer0) := by
    intro k hk
    simp only [sszMerkleize]
    rw [hk, ceilLog2_two_pow, Nat.sub_self, List.replicate_zero, List.append_nil,
      iterate_hashPairs_perfect H k layer0 hk]
    rfl
  rcases hN with hN | hN
  · exact hpow d hN
  · obtain ⟨d1, rfl⟩ : ∃ d1, d = d1 + 1 := by
      cases d with
      | zero => rw [pow_zero] at hN; omega
      | succ d1 => exact ⟨d1, rfl⟩
    cases d1 with
    | zero => exact hpow 0 (by rw [pow_zero]; rw [zero_add, pow_one] at hN; omega)
    | succ d2 =>
      have hlen : layer0.length = 2 ^ (d2 + 1 + 1) - 1 := by omega
      have hodd : layer0.length % 2 = 1 := by
        rw [pow_succ] at hN
        omega
      have hpad : 2 ^ (d2 + 1 + 1) - layer0.length = 1 := by omega
      have hlog : ceilLog2 layer0.length = d2 + 1 + 1 := by
        rw [hlen]
        exact ceilLog2_two_pow_pred _ (by omega)
      have hperf := iterate_hashPairs_perfect H (d2 + 1 + 1) (layer0 ++ [zeroBytes])
        (by rw [List.length_append, List.length_singleton, hN])
      rw [Function.iterate_succ_apply, hashPairs_append_zero H layer0 hodd,
        ← Function.iterate_succ_apply] at hperf
      simp only [sszMerkleize]
      rw [hlog, hpad, hperf]
      rfl

/-- C5, amended, at concrete inputs: four leaves and three leaves. -/
theorem layered_root_eq_ssz_witness :
    rootOf (rebuild toyHash 2 [fill 1, fill 2, fill 3, fill 4])
        = some (sszMerkleize toyHash
            ((rebuild toyHash 2 [fill 1, fill 2, fill 3, fill 4]).getD 0 []))
      ∧ rootOf (rebuild toyHash 2 [fill 1, fill 2, fill 3])
        = some (sszMerkleize toyHash ((rebuild toyHash 2 [fill 1, fill 2, fill 3]).getD 0 [])) :=
  ⟨layered_root_eq_ssz toyHash (rebuild toyHash 2 [fill 1, fill 2, fill 3, fill 4]) 2
      (by decide) (hashed_rebuild toyHash 2 _) (by decide) (Or.inl (by decide)),
    layered_root_eq_ssz toyHash (rebuild toyHash 2 [fill 1, fill 2, fill 3]) 2
      (by decide) (hashed_rebuild toyHash 2 _) (by decide) (Or.inr (by decide))⟩

/-! ## The recomputed branch in closed form -/

theorem length_branch (H : Bytes → Bytes) :
    ∀ (layers : Layers) (cur : Nat) (v : Bytes),
      (branch H cur v layers).map List.length = layers.map List.length
  | [], _, _ => rfl
  | layer :: ups, cur, v => by
    have ih := length_branch H ups (cur / 2) (pairHash H (layer.set cur v) (cur / 2))
    simp only [branch, List.map_cons, List.length_set, ih]

/-- Well-formedness depends on the sizes of the layers only. -/
theorem wellFormed_of_lengths :
    ∀ (a b : Layers), a.map List.length = b.map List.length → WellFormed a → WellFormed b
  | [], [], _, h => h
  | [], _ :: _, he, _ => by simp at he
  | _ :: _, [], he, _ => by simp at he
  | [x], [y], he, h => by
    simp only [List.map_cons, List.map_nil, List.cons.injEq, and_true] at he
    simpa [WellFormed, ← he] using h
  | [_], _ :: _ :: _, he, _ => by simp at he
  | _ :: _ :: _, [_], he, _ => by simp at he
  | x :: x1 :: xs, y :: y1 :: ys, he, h => by
    simp only [List.map_cons, List.cons.injEq] at he
    have ih := wellFormed_of_lengths (x1 :: xs) (y1 :: ys)
      (by simp only [List.map_cons, List.cons.injEq]; exact ⟨he.2.1, he.2.2⟩) h.2
    exact ⟨by rw [← he.1, ← he.2.1]; exact h.1, ih⟩

/-- On well-formed layers, `climb` from an entry that holds `v` gives the
closed form. -/
theorem climb_eq_branch (H : Bytes → Bytes) :
    ∀ (ups : Layers) (layer : List Bytes) (cur : Nat) (v : Bytes),
      WellFormed (layer :: ups) → cur < layer.length →
      climb H cur v (layer.set cur v) ups = some (branch H cur v (layer :: ups))
  | [], layer, cur, v, _, _ => rfl
  | up :: rest, layer, cur, v, hw, hcur => by
    have hroot : (layer.set cur v)[cur]? = some v := List.getElem?_set_self hcur
    have hstep := step_hash H (layer.set cur v) cur v hroot
    have hup : cur / 2 < up.length := by rw [hw.1]; omega
    have ih := climb_eq_branch H rest up (cur / 2) (pairHash H (layer.set cur v) (cur / 2))
      hw.2 hup
    simp only [climb, hstep, if_pos hup, ih, Option.map_some', branch]

/-- Writing a leaf of well-formed layers and running `recomputeRoot` gives the
closed form. -/
theorem write_recompute_eq_branch (H : Bytes → Bytes) (layer0 : List Bytes) (ups : Layers)
    (idx : Nat) (h : Bytes) (hw : WellFormed (layer0 :: ups)) (hidx : idx < layer0.length) :
    (writeLeaf (layer0 :: ups) idx h).bind (fun written => recomputeRoot H written idx)
      = some (branch H idx h (layer0 :: ups)) := by
  have hwrite : writeLeaf (layer0 :: ups) idx h = some (layer0.set idx h :: ups) := by
    simp [writeLeaf, hidx]
  rw [hwrite, Option.some_bind,
    recomputeRoot_eq_climb H (layer0.set idx h) ups idx h (List.getElem?_set_self hidx)]
  exact climb_eq_branch H ups layer0 idx h hw hidx

/-- Running `recomputeRoot` on well-formed layers gives the closed form with
the stored leaf. -/
theorem recomputeRoot_eq_branch (H : Bytes → Bytes) (layer0 : List Bytes) (ups : Layers)
    (idx : Nat) (hw : WellFormed (layer0 :: ups)) (hidx : idx < layer0.length) :
    recomputeRoot H (layer0 :: ups) idx = some (branch H idx layer0[idx] (layer0 :: ups)) := by
  have h := climb_eq_branch H ups layer0 idx layer0[idx] hw hidx
  have hset : layer0.set idx layer0[idx] = layer0 := by
    apply List.ext_getElem?
    intro j
    rw [List.getElem?_set]
    split
    · rename_i hj
      subst hj
      simp [hidx]
    · rfl
  rw [hset] at h
  rw [recomputeRoot_eq_climb H layer0 ups idx layer0[idx] (List.getElem?_eq_getElem hidx), h]

/-- Layer `k` of the closed form is layer `k` with the entry `cur / 2 ^ k`
replaced. -/
theorem branch_getElem? (H : Bytes → Bytes) :
    ∀ (layers : Layers) (cur : Nat) (v : Bytes) (k : Nat),
      ∃ w, (branch H cur v layers)[k]? = (layers[k]?).map (fun l => l.set (cur / 2 ^ k) w)
  | [], _, v, _ => ⟨v, by simp [branch]⟩
  | layer :: ups, cur, v, 0 => ⟨v, by simp [branch]⟩
  | layer :: ups, cur, v, k + 1 => by
    obtain ⟨w, hw⟩ := branch_getElem? H ups (cur / 2) (pairHash H (layer.set cur v) (cur / 2)) k
    refine ⟨w, ?_⟩
    have e : cur / 2 / 2 ^ k = cur / 2 ^ (k + 1) := by
      rw [Nat.div_div_eq_div_mul, pow_succ, Nat.mul_comm]
    simp only [branch, List.getElem?_cons_succ, hw, e]

/-- Replacing the same entry twice keeps the second replacement only. -/
theorem branch_branch_same (H : Bytes → Bytes) :
    ∀ (layers : Layers) (p : Nat) (x q : Bytes),
      branch H p q (branch H p x layers) = branch H p q layers
  | [], _, _, _ => rfl
  | layer :: ups, p, x, q => by
    have hset : (layer.set p x).set p q = layer.set p q := List.set_set _ _ _ _
    simp only [branch, hset]
    rw [branch_branch_same H ups (p / 2)]

/-- The hash of a pair does not see a replacement outside the pair. -/
theorem pairHash_set_of_ne (H : Bytes → Bytes) (layer : List Bytes) (b p : Nat) (v : Bytes)
    (h : b / 2 ≠ p) : pairHash H (layer.set b v) p = pairHash H layer p := by
  have e1 : (layer.set b v).getD (2 * p) zeroBytes = layer.getD (2 * p) zeroBytes := by
    simp only [List.getD_eq_getElem?_getD]
    rw [List.getElem?_set_ne (by omega)]
  have e2 : (layer.set b v).getD (2 * p + 1) zeroBytes = layer.getD (2 * p + 1) zeroBytes := by
    simp only [List.getD_eq_getElem?_getD]
    rw [List.getElem?_set_ne (by omega)]
  simp only [pairHash, e1, e2]

/-- Replacements at two distinct entries of a layer commute, together with
the recomputation of their branches. -/
theorem branch_comm (H : Bytes → Bytes) :
    ∀ (layers : Layers) (a b : Nat) (va vb : Bytes), a ≠ b →
      branch H b vb (branch H a va layers) = branch H a va (branch H b vb layers)
  | [], _, _, _, _, _ => rfl
  | layer :: ups, a, b, va, vb, hab => by
    have hset : (layer.set a va).set b vb = (layer.set b vb).set a va :=
      List.set_comm va vb layer hab
    simp only [branch, hset]
    congr 1
    by_cases hp : a / 2 = b / 2
    · rw [hp, branch_branch_same, branch_branch_same]
    · rw [pairHash_set_of_ne H (layer.set b vb) a (b / 2) va hp, ← hset,
        pairHash_set_of_ne H (layer.set a va) b (a / 2) vb (Ne.symm hp)]
      exact branch_comm H ups (a / 2) (b / 2) _ _ hp

/-- Writing a leaf of well-formed layers whose parents are the hashes of their
children and running `recomputeRoot` gives the full rehash. -/
theorem write_recompute_eq_rebuild (H : Bytes → Bytes) (layer0 : List Bytes) (ups : Layers)
    (idx : Nat) (h : Bytes) (hw : WellFormed (layer0 :: ups)) (hh : Hashed H (layer0 :: ups))
    (hidx : idx < layer0.length) :
    (writeLeaf (layer0 :: ups) idx h).bind (fun written => recomputeRoot H written idx)
      = some (rebuild H ups.length (layer0.set idx h)) := by
  have hreb := eq_rebuild_of_hashed H ups layer0 hw hh
  have hups : ups = (rebuild H ups.length layer0).tail := by
    rw [← hreb]
    rfl
  have hwrite : writeLeaf (layer0 :: ups) idx h = some (layer0.set idx h :: ups) := by
    simp [writeLeaf, hidx]
  rw [hwrite, Option.some_bind,
    recomputeRoot_eq_climb H (layer0.set idx h) ups idx h (List.getElem?_set_self hidx)]
  conv_lhs => rw [hups]
  exact climb_rebuild H ups.length layer0 idx h hidx

/-! ## Three leaves -/

/-- C11: on layers of sizes 3, 2, 1 whose parents are the hashes of their
children, for every `idx < 3` and every `h`, writing `h` to `layer0[idx]` and
running `recomputeRoot(idx)` returns, and with `l0, l1, l2` the leaves
afterwards, layer 1 is `[Hash(l0 ++ l1), Hash(l2 ++ Z)]` and the root is
`Hash(Hash(l0 ++ l1) ++ Hash(l2 ++ Z))`, `Z` being 32 zero bytes: the sibling
missing at index 3 is replaced by `Z`, no index is out of range. -/
theorem three_leaves_padding (H : Bytes → Bytes) (layers : Layers) (idx : Nat) (h : Bytes)
    (hsizes : layers.map List.length = [3, 2, 1]) (hh : Hashed H layers) (hidx : idx < 3) :
    ∃ l0 l1 l2, (layers.getD 0 []).set idx h = [l0, l1, l2] ∧
      (writeLeaf layers idx h).bind (fun written => recomputeRoot H written idx)
        = some [[l0, l1, l2], [H (l0 ++ l1), H (l2 ++ zeroBytes)],
            [H (H (l0 ++ l1) ++ H (l2 ++ zeroBytes))]] := by
  obtain ⟨layer0, layer1, top, rfl⟩ : ∃ a b c, layers = [a, b, c] := by
    have hlen : layers.length = 3 := by
      have := congrArg List.length hsizes
      simpa using this
    match layers, hlen with
    | [a, b, c], _ => exact ⟨a, b, c, rfl⟩
  simp only [List.map_cons, List.map_nil, List.cons.injEq, and_true] at hsizes
  have hw : WellFormed [layer0, layer1, top] := by
    simp [WellFormed, hsizes.1, hsizes.2.1, hsizes.2.2]
  have hmain := write_recompute_eq_rebuild H layer0 [layer1, top] idx h hw hh
    (by rw [hsizes.1]; exact hidx)
  have hlen : (layer0.set idx h).length = 3 := by rw [List.length_set, hsizes.1]
  obtain ⟨l0, l1, l2, hl⟩ : ∃ a b c, layer0.set idx h = [a, b, c] := by
    match layer0.set idx h, hlen with
    | [a, b, c], _ => exact ⟨a, b, c, rfl⟩
  refine ⟨l0, l1, l2, by simpa using hl, ?_⟩
  rw [hmain, hl]
  simp [rebuild, hashPairs]

/-- C11 at a concrete input: three leaves hashed with the checksum, leaf 2
replaced. -/
theorem three_leaves_padding_witness :
    ∃ l0 l1 l2,
      ((rebuild toyHash 2 [fill 1, fill 2, fill 3]).getD 0 []).set 2 (fill 9) = [l0, l1, l2] ∧
      (writeLeaf (rebuild toyHash 2 [fill 1, fill 2, fill 3]) 2 (fill 9)).bind
          (fun written => recomputeRoot toyHash written 2)
        = some [[l0, l1, l2], [toyHash (l0 ++ l1), toyHash (l2 ++ zeroBytes)],
            [toyHash (toyHash (l0 ++ l1) ++ toyHash (l2 ++ zeroBytes))]] :=
  three_leaves_padding toyHash (rebuild toyHash 2 [fill 1, fill 2, fill 3]) 2 (fill 9)
    (by simp [rebuild, hashPairs, fill]) (hashed_rebuild toyHash 2 _) (by decide)

/-! ## The frame of `recomputeRoot` -/

/-- C17: on well-formed layers `recomputeRoot(idx)` returns layers with the
same number of layers and the same size of every layer; layer 0 is unchanged,
and in layer `k+1` every entry other than the one at `idx / 2^(k+1)` is
unchanged. -/
theorem recomputeRoot_frame (H : Bytes → Bytes) (layers : Layers) (idx : Nat)
    (hw : WellFormed layers) (hidx : idx < (layers.getD 0 []).length) :
    ∃ out, recomputeRoot H layers idx = some out ∧ out.length = layers.length
      ∧ (∀ k, (out.getD k []).length = (layers.getD k []).length)
      ∧ out[0]? = layers[0]?
      ∧ ∀ k j, j ≠ idx / 2 ^ (k + 1) →
          (out.getD (k + 1) [])[j]? = (layers.getD (k + 1) [])[j]? := by
  obtain ⟨layer0, ups, rfl⟩ := wellFormed_ne_nil layers hw
  have hcur : idx < layer0.length := by simpa using hidx
  have hout := recomputeRoot_eq_branch H layer0 ups idx hw hcur
  have hhead := recomputeRoot_head H (layer0 :: ups) idx _ hout
  have hlens := length_branch H (layer0 :: ups) idx layer0[idx]
  refine ⟨_, hout, ?_, ?_, hhead, ?_⟩
  · have := congrArg List.length hlens
    simpa using this
  · intro k
    obtain ⟨w, hk⟩ := branch_getElem? H (layer0 :: ups) idx layer0[idx] k
    simp only [List.getD_eq_getElem?_getD, hk]
    cases (layer0 :: ups)[k]? <;> simp
  · intro k j hj
    obtain ⟨w, hk⟩ := branch_getElem? H (layer0 :: ups) idx layer0[idx] (k + 1)
    simp only [List.getD_eq_getElem?_getD, hk]
    cases (layer0 :: ups)[k + 1]? with
    | none => simp
    | some l =>
      simp only [Option.map_some', Option.getD_some]
      exact List.getElem?_set_ne (Ne.symm hj)

/-- C17 at a concrete input: layers of sizes 3, 2, 1 with unrelated contents. -/
theorem recomputeRoot_frame_witness :
    ∃ out, recomputeRoot toyHash [[fill 1, fill 2, fill 3], [fill 4, fill 5], [fill 6]] 2
        = some out
      ∧ out.length = [[fill 1, fill 2, fill 3], [fill 4, fill 5], [fill 6]].length
      ∧ (∀ k, (out.getD k []).length
          = ([[fill 1, fill 2, fill 3], [fill 4, fill 5], [fill 6]].getD k []).length)
      ∧ out[0]? = [[fill 1, fill 2, fill 3], [fill 4, fill 5], [fill 6]][0]?
      ∧ ∀ k j, j ≠ 2 / 2 ^ (k + 1) →
          (out.getD (k + 1) [])[j]?
            = ([[fill 1, fill 2, fill 3], [fill 4, fill 5], [fill 6]].getD (k + 1) [])[j]? :=
  recomputeRoot_frame toyHash [[fill 1, fill 2, fill 3], [fill 4, fill 5], [fill 6]] 2
    (by simp [WellFormed]) (by simp)

/-! ## Updates of two leaves -/

/-- C20: on well-formed layers with arbitrary contents, for distinct indices
`i` and `j` below the number of leaves, writing `hi` at `layer0[i]` and
running `recomputeRoot(i)`, then writing `hj` at `layer0[j]` and running
`recomputeRoot(j)`, returns the same layers, hence the same root, as the two
updates in the opposite order. -/
theorem leaf_updates_commute (H : Bytes → Bytes) (layers : Layers) (i j : Nat) (hi hj : Bytes)
    (hw : WellFormed layers) (hij : i ≠ j) (hil : i < (layers.getD 0 []).length)
    (hjl : j < (layers.getD 0 []).length) :
    ∃ out,
      ((writeLeaf layers i hi).bind (fun written => recomputeRoot H written i)).bind
          (fun mid => (writeLeaf mid j hj).bind (fun written => recomputeRoot H written j))
        = some out
      ∧ ((writeLeaf layers j hj).bind (fun written => recomputeRoot H written j)).bind
          (fun mid => (writeLeaf mid i hi).bind (fun written => recomputeRoot H written i))
        = some out := by
  obtain ⟨layer0, ups, rfl⟩ := wellFormed_ne_nil layers hw
  have hi0 : i < layer0.length := by simpa using hil
  have hj0 : j < layer0.length := by simpa using hjl
  have step : ∀ (a b : Nat) (va vb : Bytes), a < layer0.length → b < layer0.length →
      ((writeLeaf (layer0 :: ups) a va).bind (fun written => recomputeRoot H written a)).bind
          (fun mid => (writeLeaf mid b vb).bind (fun written => recomputeRoot H written b))
        = some (branch H b vb (branch H a va (layer0 :: ups))) := by
    intro a b va vb ha hb
    rw [write_recompute_eq_branch H layer0 ups a va hw ha, Option.some_bind]
    have hw1 : WellFormed (branch H a va (layer0 :: ups)) :=
      wellFormed_of_lengths _ _ (length_branch H (layer0 :: ups) a va).symm hw
    simp only [branch] at hw1 ⊢
    exact write_recompute_eq_branch H (layer0.set a va) _ b vb hw1
      (by rw [List.length_set]; exact hb)
  refine ⟨branch H j hj (branch H i hi (layer0 :: ups)), step i j hi hj hi0 hj0, ?_⟩
  rw [step j i hj hi hj0 hi0, branch_comm H (layer0 :: ups) i j hi hj hij]

/-- C20 at a concrete input: leaves 0 and 2 of layers of sizes 3, 2, 1. -/
theorem leaf_updates_commute_witness :
    ∃ out,
      ((writeLeaf [[fill 1, fill 2, fill 3], [fill 4, fill 5], [fill 6]] 0 (fill 7)).bind
          (fun written => recomputeRoot toyHash written 0)).bind
          (fun mid => (writeLeaf mid 2 (fill 8)).bind
            (fun written => recomputeRoot toyHash written 2))
        = some out
      ∧ ((writeLeaf [[fill 1, fill 2, fill 3], [fill 4, fill 5], [fill 6]] 2 (fill 8)).bind
          (fun written => recomputeRoot toyHash written 2)).bind
          (fun mid => (writeLeaf mid 0 (fill 7)).bind
            (fun written => recomputeRoot toyHash written 0))
        = some out :=
  leaf_updates_commute toyHash [[fill 1, fill 2, fill 3], [fill 4, fill 5], [fill 6]] 0 2
    (fill 7) (fill 8) (by simp [WellFormed]) (by decide) (by simp) (by simp)

/-! ## The lock -/

theorem commitLeaf_eq_steps (env : Env P) (b : BeaconState P) (idx : fieldIndex)
    (root : Bytes) : commitLeaf env b idx root = commitLeafSteps env b idx root := by
  unfold commitLeaf commitLeafSteps Lock Unlock
  cases hl : b.lock <;> simp

/-- On a well-formed state whose lock is free every setter returns. -/
theorem runCall_returns (env : Env P) (b : BeaconState P) (call : Call P)
    (hw : WellFormedState b) (hl : b.lock = false) :
    ∃ err b1, runCall env b call = .returned err b1 := by
  rw [runCall_eq]
  split
  · exact ⟨_, _, rfl⟩
  · rename_i r i _ hi
    have hw1 := wellFormedState_assignField b call hw
    obtain ⟨_, layers, _, _, hc⟩ := commitLeaf_wellFormed env (assignField b call) i r hw1.1
      (lt_of_lt_of_le (leafIndexOf_lt call i hi) hw1.2) (by rw [lock_assignField]; exact hl)
    exact ⟨_, _, hc⟩
  · exact ⟨_, _, rfl⟩

/-- C12: with the lock of the state as a flag, on a well-formed state whose
lock is free every setter returns, and whenever it returns, with `nil` or
with an error, the lock is free; the flag is set by `Lock` and cleared by
`Unlock` on the one path that takes it. -/
theorem lock_free_after_return (env : Env P) (b : BeaconState P) (call : Call P)
    (hw : WellFormedState b) (hl : b.lock = false) :
    (∃ err b1, runCall env b call = .returned err b1)
      ∧ (∀ err b1, runCall env b call = .returned err b1 → b1.lock = false)
      ∧ (∀ idx root, commitLeaf env b idx root = commitLeafSteps env b idx root) := by
  refine ⟨runCall_returns env b call hw hl, ?_, fun idx root => commitLeaf_eq_steps env b idx root⟩
  intro err b1 h
  rw [runCall_eq] at h
  split at h
  · simp only [Outcome.returned.injEq] at h
    rw [← h.2]
    exact hl
  · obtain ⟨_, _, _, _, _, _, rfl⟩ := commitLeaf_returned env _ _ _ _ _ h
    rfl
  · simp only [Outcome.returned.injEq] at h
    rw [← h.2, lock_assignField]
    exact hl

/-- C12 at concrete inputs: a call that returns `nil` and a call that returns
an error. -/
theorem lock_free_after_return_witness :
    ((∃ err b1, runCall toyEnv toyState (.SetSlot 3) = .returned err b1)
      ∧ (∀ err b1, runCall toyEnv toyState (.SetSlot 3) = .returned err b1 → b1.lock = false)
      ∧ (∀ idx root, commitLeaf toyEnv toyState idx root
          = commitLeafSteps toyEnv toyState idx root))
    ∧ ((∃ err b1, runCall toyEnv toyState (.SetFork none) = .returned err b1)
      ∧ (∀ err b1, runCall toyEnv toyState (.SetFork none) = .returned err b1 →
          b1.lock = false)
      ∧ (∀ idx root, commitLeaf toyEnv toyState idx root
          = commitLeafSteps toyEnv toyState idx root)) :=
  ⟨lock_free_after_return toyEnv toyState (.SetSlot 3) wellFormedState_toyState rfl,
    lock_free_after_return toyEnv toyState (.SetFork none) wellFormedState_toyState rfl⟩

/-! ## Indices and hash calls of `recomputeRoot` -/

/-- Whenever the loop returns, it has tested its condition with `currentIndex`
equal to `cur / 2 ^ k` at iteration `k`, and has called the hash once in each
of its `n` iterations. -/
theorem recomputeLoopStats_eq (H : Bytes → Bytes) :
    ∀ (n i cur : Nat) (root : Bytes) (layers : Layers),
      recomputeLoopStats H n i cur root layers
        = (recomputeLoop H n i cur root layers).map
            (fun out => (out, (List.range (n + 1)).map (fun k => cur / 2 ^ k), n)) := by
  intro n
  induction n with
  | zero => intro i cur root layers; simp [recomputeLoopStats, recomputeLoop, List.range_succ]
  | succ n ih =>
    intro i cur root layers
    simp only [recomputeLoopStats, recomputeLoop]
    cases layers[i + 1]? with
    | none => rfl
    | some up =>
      simp only
      split
      · rw [ih]
        cases recomputeLoop H n (i + 1) (cur / 2) _ _ with
        | none => rfl
        | some out =>
          simp only [Option.map_some', Option.some.injEq, Prod.mk.injEq, true_and, and_true]
          rw [List.range_succ_eq_map (n + 1)]
          simp only [List.map_cons, pow_zero, Nat.div_one, List.map_map, List.cons.injEq,
            true_and]
          apply List.map_congr_left
          intro k _
          simp only [Function.comp_apply]
          rw [Nat.div_div_eq_div_mul, pow_succ, Nat.mul_comm]
      · rfl

theorem recomputeRootStats_eq (H : Bytes → Bytes) (layers : Layers) (idx : Nat) :
    recomputeRootStats H layers idx
      = (recomputeRoot H layers idx).map
          (fun out => (out, (List.range layers.length).map (fun k => idx / 2 ^ k),
            layers.length - 1)) := by
  cases layers with
  | nil => rfl
  | cons layer0 ups =>
    simp only [recomputeRootStats, recomputeRoot, List.getElem?_cons_zero, List.length_cons,
      Nat.add_sub_cancel]
    cases layer0[idx]? with
    | none => rfl
    | some root => exact recomputeLoopStats_eq H ups.length 0 idx root (layer0 :: ups)

/-- In well-formed layers the index `cur / 2 ^ k` lies in layer `k`, and is 0
in the last layer. -/
theorem wellFormed_index_bound :
    ∀ (ups : Layers) (layer : List Bytes) (cur : Nat), WellFormed (layer :: ups) →
      cur < layer.length →
      (∀ k, k < ups.length + 1 → cur / 2 ^ k < ((layer :: ups).getD k []).length)
        ∧ cur / 2 ^ ups.length = 0
  | [], layer, cur, hw, hcur => by
    have h1 : layer.length = 1 := hw
    constructor
    · intro k hk
      have : k = 0 := by simpa using hk
      subst this
      simpa using hcur
    · simp only [List.length_nil, pow_zero, Nat.div_one]
      omega
  | up :: rest, layer, cur, hw, hcur => by
    have hup : cur / 2 < up.length := by rw [hw.1]; omega
    obtain ⟨ih1, ih2⟩ := wellFormed_index_bound rest up (cur / 2) hw.2 hup
    have e : ∀ k, cur / 2 / 2 ^ k = cur / 2 ^ (k + 1) := by
      intro k
      rw [Nat.div_div_eq_div_mul, pow_succ, Nat.mul_comm]
    constructor
    · intro k hk
      cases k with
      | zero => simpa using hcur
      | succ k =>
        have := ih1 k (by simpa using hk)
        rw [e] at this
        simpa using this
    · rw [List.length_cons, ← e]
      exact ih2

/-- C18: on well-formed layers, for `idx` below the number of leaves,
`recomputeRoot(idx)` returns: no index it reads or writes is out of range.
At iteration `k` the value of `currentIndex` is `idx / 2 ^ k`, which lies in
layer `k` (so the parent index lies in layer `k + 1`), and the loop ends with
`currentIndex = 0` at the last layer. -/
theorem recomputeRoot_in_bounds (H : Bytes → Bytes) (layers : Layers) (idx : Nat)
    (hw : WellFormed layers) (hidx : idx < (layers.getD 0 []).length) :
    ∃ out indices hashes, recomputeRootStats H layers idx = some (out, indices, hashes)
      ∧ recomputeRoot H layers idx = some out
      ∧ indices = (List.range layers.length).map (fun k => idx / 2 ^ k)
      ∧ (∀ k, k < layers.length → idx / 2 ^ k < (layers.getD k []).length)
      ∧ indices.getLast? = some 0 := by
  obtain ⟨out, hout⟩ := recomputeRoot_returns H layers idx hw hidx
  obtain ⟨layer0, ups, rfl⟩ := wellFormed_ne_nil layers hw
  have hcur : idx < layer0.length := by simpa using hidx
  obtain ⟨hb, hz⟩ := wellFormed_index_bound ups layer0 idx hw hcur
  refine ⟨out, (List.range (layer0 :: ups).length).map (fun k => idx / 2 ^ k),
    (layer0 :: ups).length - 1, ?_, hout, rfl, ?_, ?_⟩
  · rw [recomputeRootStats_eq, hout]
    rfl
  · intro k hk
    exact hb k (by simpa using hk)
  · rw [List.length_cons, List.range_succ, List.map_append, List.map_singleton,
      List.getLast?_concat, hz]

/-- C18 at a concrete input: twenty leaves, leaf 19. -/
theorem recomputeRoot_in_bounds_witness :
    ∃ out indices hashes,
      recomputeRootStats toyHash (rebuild toyHash 5 ((List.range 20).map fill)) 19
        = some (out, indices, hashes)
      ∧ recomputeRoot toyHash (rebuild toyHash 5 ((List.range 20).map fill)) 19 = some out
      ∧ indices = (List.range (rebuild toyHash 5 ((List.range 20).map fill)).length).map
          (fun k => 19 / 2 ^ k)
      ∧ (∀ k, k < (rebuild toyHash 5 ((List.range 20).map fill)).length →
          19 / 2 ^ k < ((rebuild toyHash 5 ((List.range 20).map fill)).getD k []).length)
      ∧ indices.getLast? = some 0 :=
  recomputeRoot_in_bounds toyHash (rebuild toyHash 5 ((List.range 20).map fill)) 19
    (by decide) (by decide)

/-! ## The number of layers and of hash calls -/

theorem ceilLog2_spec (n : Nat) :
    n ≤ 2 ^ ceilLog2 n ∧ ∀ e, e < ceilLog2 n → ¬ n ≤ 2 ^ e := by
  have hex : ∃ d, n ≤ 2 ^ d := ⟨n, le_of_lt (Nat.lt_two_pow n)⟩
  have heq : ceilLog2 n = Nat.find hex :=
    ceilLog2_eq n (Nat.find hex) (Nat.find_spec hex) (fun e he => Nat.find_min hex he)
  rw [heq]
  exact ⟨Nat.find_spec hex, fun e he => Nat.find_min hex he⟩

theorem ceilLog2_half (n : Nat) (hn : 2 ≤ n) : ceilLog2 n = ceilLog2 ((n + 1) / 2) + 1 := by
  obtain ⟨h1, h2⟩ := ceilLog2_spec ((n + 1) / 2)
  apply ceilLog2_eq
  · rw [pow_succ]
    omega
  · intro e he hle
    cases e with
    | zero => simp at hle; omega
    | succ e =>
      have := h2 e (by omega)
      rw [pow_succ] at hle
      omega

/-- Well-formed layers that stop at the first layer of one entry have
`ceilLog2 N + 1` layers over `N` leaves. -/
theorem length_of_minimal :
    ∀ (ups : Layers) (layer : List Bytes), WellFormed (layer :: ups) → Minimal (layer :: ups) →
      (layer :: ups).length = ceilLog2 layer.length + 1
  | [], layer, hw, _ => by
    have h1 : layer.length = 1 := hw
    rw [h1]
    rfl
  | up :: rest, layer, hw, hm => by
    have ih := length_of_minimal rest up hw.2 hm.2
    rw [List.length_cons, ih, ceilLog2_half layer.length hm.1, hw.1]

/-- C19: on well-formed layers `recomputeRoot(idx)` calls the hash once in
each iteration of its loop, `number of layers - 1` times whatever `idx` is;
layers of sizes `N, ceil(N/2), ..., 1` that stop at the first layer of one
entry are `ceil(log2 N) + 1` layers, so that the count is `ceil(log2 N)`:
5 for 20 leaves, 2 for 4 and for 3 leaves, 0 for one leaf. -/
theorem recomputeRoot_hash_count (H : Bytes → Bytes) (layers : Layers) (idx : Nat)
    (hw : WellFormed layers) (hidx : idx < (layers.getD 0 []).length) :
    (∃ out indices, recomputeRootStats H layers idx = some (out, indices, layers.length - 1))
      ∧ (Minimal layers →
          layers.length = ceilLog2 (layers.getD 0 []).length + 1
            ∧ ∃ out indices, recomputeRootStats H layers idx
                = some (out, indices, ceilLog2 (layers.getD 0 []).length))
      ∧ ceilLog2 20 = 5 ∧ ceilLog2 4 = 2 ∧ ceilLog2 3 = 2 ∧ ceilLog2 1 = 0 := by
  obtain ⟨out, hout⟩ := recomputeRoot_returns H layers idx hw hidx
  have hstats : recomputeRootStats H layers idx
      = some (out, (List.range layers.length).map (fun k => idx / 2 ^ k), layers.length - 1) := by
    rw [recomputeRootStats_eq, hout]
    rfl
  refine ⟨⟨_, _, hstats⟩, ?_, by decide, by decide, by decide, by decide⟩
  intro hm
  obtain ⟨layer0, ups, rfl⟩ := wellFormed_ne_nil layers hw
  have hlen := length_of_minimal ups layer0 hw hm
  have hget : (layer0 :: ups).getD 0 [] = layer0 := rfl
  refine ⟨by rw [hget]; exact hlen, out,
    (List.range (layer0 :: ups).length).map (fun k => idx / 2 ^ k), ?_⟩
  rw [hstats, hget, hlen]
  rfl

/-- C19 at a concrete input: twenty leaves, leaf 7, five hash calls. -/
theorem recomputeRoot_hash_count_witness :
    (∃ out indices, recomputeRootStats toyHash (rebuild toyHash 5 ((List.range 20).map fill)) 7
        = some (out, indices, 5))
      ∧ Minimal (rebuild toyHash 5 ((List.range 20).map fill)) :=
  ⟨(recomputeRoot_hash_count toyHash (rebuild toyHash 5 ((List.range 20).map fill)) 7
      (by decide) (by decide)).1, by decide⟩

/-! ## The best aggregated attestation -/

/-- The loop returns the earliest element of `best :: rest` with the greatest
count. -/
theorem bestOf_spec {Att : Type} (count : Att → Nat) :
    ∀ (rest : List Att) (best : Att),
      (∀ a, a ∈ best :: rest → count a ≤ count (bestOf count best rest))
        ∧ ∃ i : Nat, (best :: rest)[i]? = some (bestOf count best rest)
          ∧ ∀ (j : Nat) (a : Att), j < i → (best :: rest)[j]? = some a →
              count a < count (bestOf count best rest)
  | [], best => by
    refine ⟨fun a ha => ?_, 0, rfl, fun j a hj _ => absurd hj (by omega)⟩
    simp only [List.mem_singleton] at ha
    subst ha
    exact le_refl _
  | x :: rest, best => by
    obtain ⟨hmax, i, hi, hmin⟩ :=
      bestOf_spec count rest (if count x > count best then x else best)
    have hb : count best ≤ count (if count x > count best then x else best)
        ∧ count x ≤ count (if count x > count best then x else best) := by
      split <;> omega
    have hb1 := hmax _ (List.mem_cons_self _ _)
    simp only [bestOf]
    constructor
    · intro a ha
      rcases List.mem_cons.mp ha with rfl | ha
      · omega
      · rcases List.mem_cons.mp ha with rfl | ha
        · omega
        · exact hmax a (List.mem_cons_of_mem _ ha)
    · cases i with
      | zero =>
        simp only [List.getElem?_cons_zero, Option.some.injEq] at hi
        by_cases hgt : count x > count best
        · rw [if_pos hgt] at hi
          refine ⟨1, by rw [if_pos hgt, ← hi]; simp, ?_⟩
          intro j a hj ha
          have hj0 : j = 0 := by omega
          subst hj0
          simp only [List.getElem?_cons_zero, Option.some.injEq] at ha
          rw [if_pos hgt, ← hi, ← ha]
          exact hgt
        · rw [if_neg hgt] at hi
          exact ⟨0, by rw [if_neg hgt, ← hi]; simp, fun j a hj _ => absurd hj (by omega)⟩
      | succ k =>
        have hlt := hmin 0 (if count x > count best then x else best) (by omega) (by simp)
        refine ⟨k + 2, by simpa using hi, ?_⟩
        intro j a hj ha
        match j, ha with
        | 0, ha =>
          simp only [List.getElem?_cons_zero, Option.some.injEq] at ha
          rw [← ha]
          omega
        | 1, ha =>
          simp only [List.getElem?_cons_succ, List.getElem?_cons_zero, Option.some.injEq] at ha
          rw [← ha]
          omega
        | m + 2, ha =>
          exact hmin (m + 1) a (by omega) (by simpa using ha)

/-- C15: when `SubmitAggregateSelectionProof` succeeds, `AggregateAttestations`
returned a non-empty list, the `Aggregate` of the response is an element of
that list, its `AggregationBits.Count()` is at least that of every element,
and every element before it in the list has a smaller count; the selection on
an empty list is the `Internal` error "No aggregated attestation in beacon
node", and the call does not succeed then.  When the handler reaches
`AggregateAttestations` and the list it returns is empty, the call fails with
an `Internal` status, and with that very error when the two writes to the
pool succeed. -/
theorem best_aggregate_selected {Att Err State : Type} (as : AggregatorEnv Att Err State)
    (req : AggregateSelectionRequest) :
    (∀ resp, SubmitAggregateSelectionProof as req = .ok resp →
        ∃ (atts : List Att) (i : Nat),
          as.AggregateAttestations
              (as.AggregatedAttestationsBySlotIndex req.Slot req.CommitteeIndex
                ++ as.UnAggregatedAttestationsBySlotIndex req.Slot req.CommitteeIndex)
            = .ok atts
          ∧ atts ≠ []
          ∧ atts[i]? = some resp.Aggregate
          ∧ (∀ a, a ∈ atts → as.Count a ≤ as.Count resp.Aggregate)
          ∧ (∀ (j : Nat) (a : Att), j < i → atts[j]? = some a → as.Count a < as.Count resp.Aggregate))
      ∧ (selectBest as.Count ([] : List Att)
          = (.error (.status .Internal "No aggregated attestation in beacon node" none)
              : Except (RpcError Err) Att))
      ∧ (as.AggregateAttestations
            (as.AggregatedAttestationsBySlotIndex req.Slot req.CommitteeIndex
              ++ as.UnAggregatedAttestationsBySlotIndex req.Slot req.CommitteeIndex)
          = .ok [] →
        ∀ resp, SubmitAggregateSelectionProof as req ≠ .ok resp)
      ∧ (∀ headstate validatorIndex activeValidatorIndices seed committee,
          as.Syncing = false →
          as.HeadState = .ok headstate →
          as.ValidatorIndexByPubkey headstate (as.ToBytes48 req.PublicKey)
            = some validatorIndex →
          as.HeadValidatorsIndices (as.SlotToEpoch req.Slot) = .ok activeValidatorIndices →
          as.HeadSeed (as.SlotToEpoch req.Slot) = .ok seed →
          as.BeaconCommittee activeValidatorIndices seed req.Slot req.CommitteeIndex
            = .ok committee →
          as.IsAggregator committee.length req.SlotSignature = .ok true →
          as.AggregateAttestations
              (as.AggregatedAttestationsBySlotIndex req.Slot req.CommitteeIndex
                ++ as.UnAggregatedAttestationsBySlotIndex req.Slot req.CommitteeIndex)
            = .ok [] →
          (∃ msg cause,
              SubmitAggregateSelectionProof as req = .error (.status .Internal msg cause))
            ∧ (as.SaveAggregatedAttestations [] = none →
                as.DeleteUnaggregatedAttestations
                    (as.UnAggregatedAttestationsBySlotIndex req.Slot req.CommitteeIndex)
                  = none →
                SubmitAggregateSelectionProof as req
                  = .error (.status .Internal "No aggregated attestation in beacon node"
                      none))) := by
  have hmain : ∀ resp, SubmitAggregateSelectionProof as req = .ok resp →
      ∃ (atts : List Att) (i : Nat),
        as.AggregateAttestations
            (as.AggregatedAttestationsBySlotIndex req.Slot req.CommitteeIndex
              ++ as.UnAggregatedAttestationsBySlotIndex req.Slot req.CommitteeIndex)
          = .ok atts
        ∧ atts ≠ []
        ∧ atts[i]? = some resp.Aggregate
        ∧ (∀ a, a ∈ atts → as.Count a ≤ as.Count resp.Aggregate)
        ∧ (∀ (j : Nat) (a : Att), j < i → atts[j]? = some a →
            as.Count a < as.Count resp.Aggregate) := by
    intro resp h
    unfold SubmitAggregateSelectionProof at h
    split at h
    · exact absurd h (by simp)
    split at h
    · exact absurd h (by simp)
    split at h
    · exact absurd h (by simp)
    dsimp only at h
    split at h
    · exact absurd h (by simp)
    split at h
    · exact absurd h (by simp)
    split at h
    · exact absurd h (by simp)
    split at h
    · exact absurd h (by simp)
    · exact absurd h (by simp)
    split at h
    · exact absurd h (by simp)
    rename_i atts hagg
    split at h
    · exact absurd h (by simp)
    split at h
    · exact absurd h (by simp)
    split at h
    · exact absurd h (by simp)
    rename_i best hbest
    simp only [Except.ok.injEq] at h
    subst h
    cases atts with
    | nil => simp [selectBest] at hbest
    | cons first rest =>
      simp only [selectBest, Except.ok.injEq] at hbest
      subst hbest
      obtain ⟨hmax, i, hi, hmin⟩ := bestOf_spec as.Count rest first
      exact ⟨first :: rest, i, hagg, by simp, hi, hmax, hmin⟩
  refine ⟨hmain, rfl, ?_, ?_⟩
  · intro hempty resp hresp
    obtain ⟨atts, _, hagg, hne, _⟩ := hmain resp hresp
    rw [hempty] at hagg
    simp only [Except.ok.injEq] at hagg
    exact hne hagg.symm
  · intro headstate validatorIndex activeValidatorIndices seed committee hsync hhead hidx
      hind hseed hcom hagg hempty
    have hrun : SubmitAggregateSelectionProof as req
        = match as.SaveAggregatedAttestations [] with
          | some err =>
            .error (.status .Internal "Could not save aggregated attestations: %v" (some err))
          | none =>
            match as.DeleteUnaggregatedAttestations
                (as.UnAggregatedAttestationsBySlotIndex req.Slot req.CommitteeIndex) with
            | some err =>
              .error (.status .Internal "Could not delete unaggregated attestations: %v"
                (some err))
            | none =>
              .error (.status .Internal "No aggregated attestation in beacon node" none) := by
      simp only [SubmitAggregateSelectionProof, hsync, hhead, hidx, hind, hseed, hcom, hagg,
        hempty, selectBest]
      cases as.SaveAggregatedAttestations [] with
      | some err => rfl
      | none =>
        cases as.DeleteUnaggregatedAttestations
            (as.UnAggregatedAttestationsBySlotIndex req.Slot req.CommitteeIndex) <;> rfl
    constructor
    · rw [hrun]
      cases as.SaveAggregatedAttestations [] with
      | some err => exact ⟨_, _, rfl⟩
      | none =>
        cases as.DeleteUnaggregatedAttestations
            (as.UnAggregatedAttestationsBySlotIndex req.Slot req.CommitteeIndex) with
        | some err => exact ⟨_, _, rfl⟩
        | none => exact ⟨_, _, rfl⟩
    · intro hsave hdel
      rw [hrun, hsave, hdel]

/-- C15 at concrete inputs: of the attestations 21, 35, 12, 38 with counts
2, 3, 1, 3 the handler returns 35, the first with count 3; on an empty list it
returns the `Internal` error. -/
theorem best_aggregate_selected_witness :
    SubmitAggregateSelectionProof (toyAggregator [21, 35, 12, 38])
        { Slot := 64, CommitteeIndex := 1, PublicKey := [7], SlotSignature := [9] }
      = .ok { Aggregate := 35, SelectionProof := [9], AggregatorIndex := 5 }
    ∧ SubmitAggregateSelectionProof (toyAggregator [])
        { Slot := 64, CommitteeIndex := 1, PublicKey := [7], SlotSignature := [9] }
      = .error (.status .Internal "No aggregated attestation in beacon node" none)
    ∧ (∃ (atts : List Nat) (i : Nat), atts ≠ [] ∧ atts[i]? = some 35
        ∧ (∀ a, a ∈ atts → (toyAggregator [21, 35, 12, 38]).Count a
            ≤ (toyAggregator [21, 35, 12, 38]).Count 35))
    ∧ (∃ msg cause, SubmitAggregateSelectionProof (toyAggregator [])
        { Slot := 64, CommitteeIndex := 1, PublicKey := [7], SlotSignature := [9] }
      = .error (.status .Internal msg cause)) :=
  ⟨rfl, rfl,
    match (best_aggregate_selected (toyAggregator [21, 35, 12, 38])
        { Slot := 64, CommitteeIndex := 1, PublicKey := [7], SlotSignature := [9] }).1
        { Aggregate := 35, SelectionProof := [9], AggregatorIndex := 5 } rfl with
    | ⟨atts, i, _, hne, hi, hmax, _⟩ => ⟨atts, i, hne, hi, hmax⟩,
    ((best_aggregate_selected (toyAggregator [])
        { Slot := 64, CommitteeIndex := 1, PublicKey := [7], SlotSignature := [9] }).2.2.2
        () 5 [0, 1, 2, 3, 4, 5] zeroBytes [0, 1, 2, 3, 4, 5] rfl rfl rfl rfl rfl rfl rfl rfl).1⟩

/-! ## Which value a setter hashes -/

theorem setterOf_toyCall (s : Setter) : setterOf (toyCall s) = s := by
  cases s <;> rfl

/-- On the concrete data the leaf a setter computes is the hash of the
incoming value exactly for the setters of `newValueSetters`, and the hash of
the stored value exactly for those of `oldValueSetters`. -/
theorem toyCall_computedLeaf (s : Setter) :
    (computedLeaf toyEnv toyState (toyCall s) = some (hasherOfNew toyEnv (toyCall s))
        ↔ s ∈ newValueSetters)
      ∧ (computedLeaf toyEnv toyState (toyCall s)
          = some (hasherOfStored toyEnv toyState (toyCall s)) ↔ s ∈ oldValueSetters) := by
  cases s <;> decide

theorem hashesNew_iff (s : Setter) : HashesNew s ↔ s ∈ newValueSetters := by
  constructor
  · intro h
    exact (toyCall_computedLeaf s).1.mp (h toyProto toyEnv toyState (toyCall s) (setterOf_toyCall s))
  · intro hmem P env b call hs
    subst hs
    cases call <;> first | rfl | (simp [setterOf, newValueSetters] at hmem)

theorem hashesOld_iff (s : Setter) : HashesOld s ↔ s ∈ oldValueSetters := by
  constructor
  · intro h
    exact (toyCall_computedLeaf s).2.mp (h toyProto toyEnv toyState (toyCall s) (setterOf_toyCall s))
  · intro hmem P env b call hs
    subst hs
    cases call <;> first | rfl | (simp [setterOf, oldValueSetters] at hmem)

theorem writesLeaf_iff (s : Setter) : WritesLeaf s ↔ s ∈ newValueSetters ++ oldValueSetters := by
  constructor
  · intro h
    have := h toyProto (toyCall s) (setterOf_toyCall s)
    revert this
    cases s <;> simp [toyCall, leafIndexOf, newValueSetters, oldValueSetters]
  · intro hmem P call hs
    subst hs
    cases call <;> simp [setterOf, newValueSetters, oldValueSetters, leafIndexOf] at hmem ⊢

/-- C16, as stated, fails: seventeen setters write a leaf, and no set of
setters that write a leaf and compute it from the incoming value has more
than half of seventeen members. -/
theorem new_value_setters_not_majority :
    (∀ s, WritesLeaf s ↔ s ∈ newValueSetters ++ oldValueSetters)
      ∧ (newValueSetters ++ oldValueSetters).Nodup
      ∧ (newValueSetters ++ oldValueSetters).length = 17
      ∧ ¬ ∃ news : List Setter, news.Nodup ∧ (∀ s, s ∈ news → WritesLeaf s ∧ HashesNew s)
          ∧ 17 < 2 * news.length := by
  refine ⟨writesLeaf_iff, by decide, by decide, ?_⟩
  rintro ⟨news, hnd, hall, hlt⟩
  have hsub : news ⊆ newValueSetters := fun s hs => (hashesNew_iff s).mp (hall s hs).2
  have hle := (hnd.subperm hsub).length_le
  have h8 : newValueSetters.length = 8 := by decide
  omega

/-- C16, amended: of the seventeen setters that write a leaf, the eight of
`newValueSetters` compute it from the incoming value and the nine of
`oldValueSetters` compute it from the value stored before the call; no setter
is in both lists, and the three remaining setters write no leaf. -/
theorem setters_hash_new_or_old :
    (∀ s, HashesNew s ↔ s ∈ newValueSetters)
      ∧ (∀ s, HashesOld s ↔ s ∈ oldValueSetters)
      ∧ (∀ s, WritesLeaf s ↔ s ∈ newValueSetters ∨ s ∈ oldValueSetters)
      ∧ (∀ s, ¬ (s ∈ newValueSetters ∧ s ∈ oldValueSetters))
      ∧ newValueSetters.Nodup ∧ oldValueSetters.Nodup
      ∧ newValueSetters.length = 8 ∧ oldValueSetters.length = 9 := by
  refine ⟨hashesNew_iff, hashesOld_iff, ?_, fun s => by cases s <;> decide, by decide,
    by decide, by decide, by decide⟩
  intro s
  rw [writesLeaf_iff, List.mem_append]

end Prysm
